import Mathlib

/-!
Verification of the LCNAF MARC reconciliation engine (marc.js / main.js).

This file gives a shallow embedding, in Lean 4, of the JavaScript code that
parses and rebuilds Binary MARC21 (ISO 2709) records, normalizes name
strings, resolves candidate LCCN identifiers by Levenshtein distance, and
mutates `$0` subfields, together with theorems settling the specification
claims about that code.

Modelling conventions:
- JavaScript strings are modelled by Lean `String` (a list of Unicode
  scalars).  The strings handled by this code are produced by `TextDecoder`,
  which never emits lone surrogates, so the model is exact for them.
- Byte buffers (`Uint8Array`) are modelled by `List Nat`, together with the
  hypothesis that every element is `< 256` where it matters.
- `TextDecoder('utf-8')` / `TextEncoder` are modelled by an executable
  UTF-8 codec (`utf8Decode` / `utf8EncodeChar`) implementing the WHATWG
  algorithm, including U+FFFD replacement on malformed input.
- JavaScript numbers appearing in the parser are modelled by `Option Int`,
  where `none` models `NaN` (`parseInt` failure); comparisons with `NaN`
  are `false`, matching JS semantics.
- Loops whose index provably advances at every iteration are modelled with
  an explicit fuel argument chosen large enough that the fuel never runs
  out (each such choice is justified in a comment); this keeps every
  definition structurally recursive and hence executable by kernel
  reduction.
-/

/-! ## JS primitives: UTF-8 codec (TextDecoder / TextEncoder) -/

/-- The Unicode replacement character U+FFFD emitted by `TextDecoder` for
malformed input. -/
def replChar : Char := Char.ofNat 0xFFFD

/-- Lower bound for the second byte of a multi-byte UTF-8 sequence,
depending on the lead byte (WHATWG UTF-8 decoder). -/
def utf8Lo (b : Nat) : Nat :=
  if b = 0xE0 then 0xA0 else if b = 0xF0 then 0x90 else 0x80

/-- Upper bound for the second byte of a multi-byte UTF-8 sequence,
depending on the lead byte (WHATWG UTF-8 decoder). -/
def utf8Hi (b : Nat) : Nat :=
  if b = 0xED then 0x9F else if b = 0xF4 then 0x8F else 0xBF

/-- WHATWG UTF-8 decoding with U+FFFD replacement, as performed by
`new TextDecoder('utf-8').decode(...)`: on a malformed byte the decoder
emits one replacement character and resumes at that byte; a truncated
sequence at the end of input yields a single replacement character. -/
def utf8Decode : List Nat → List Char
  | [] => []
  | b :: bs =>
    if b ≤ 0x7F then Char.ofNat b :: utf8Decode bs
    else if b ≤ 0xC1 then replChar :: utf8Decode bs
    else if b ≤ 0xDF then
      match bs with
      | [] => [replChar]
      | b1 :: bs1 =>
        if 0x80 ≤ b1 ∧ b1 ≤ 0xBF then
          Char.ofNat ((b - 0xC0) * 0x40 + (b1 - 0x80)) :: utf8Decode bs1
        else replChar :: utf8Decode (b1 :: bs1)
    else if b ≤ 0xEF then
      match bs with
      | [] => [replChar]
      | b1 :: bs1 =>
        if utf8Lo b ≤ b1 ∧ b1 ≤ utf8Hi b then
          match bs1 with
          | [] => [replChar]
          | b2 :: bs2 =>
            if 0x80 ≤ b2 ∧ b2 ≤ 0xBF then
              Char.ofNat ((b - 0xE0) * 0x1000 + (b1 - 0x80) * 0x40 + (b2 - 0x80)) ::
                utf8Decode bs2
            else replChar :: utf8Decode (b2 :: bs2)
        else replChar :: utf8Decode (b1 :: bs1)
    else if b ≤ 0xF4 then
      match bs with
      | [] => [replChar]
      | b1 :: bs1 =>
        if utf8Lo b ≤ b1 ∧ b1 ≤ utf8Hi b then
          match bs1 with
          | [] => [replChar]
          | b2 :: bs2 =>
            if 0x80 ≤ b2 ∧ b2 ≤ 0xBF then
              match bs2 with
              | [] => [replChar]
              | b3 :: bs3 =>
                if 0x80 ≤ b3 ∧ b3 ≤ 0xBF then
                  Char.ofNat ((b - 0xF0) * 0x40000 + (b1 - 0x80) * 0x1000 +
                      (b2 - 0x80) * 0x40 + (b3 - 0x80)) :: utf8Decode bs3
                else replChar :: utf8Decode (b3 :: bs3)
            else replChar :: utf8Decode (b2 :: bs2)
        else replChar :: utf8Decode (b1 :: bs1)
    else replChar :: utf8Decode bs

/-- `TextDecoder` as used on byte slices, producing a Lean `String`. -/
def jsDecode (bs : List Nat) : String := ⟨utf8Decode bs⟩

/-- UTF-8 encoding of one Unicode scalar, as performed by `TextEncoder`. -/
def utf8EncodeChar (c : Char) : List Nat :=
  let n := c.toNat
  if n ≤ 0x7F then [n]
  else if n ≤ 0x7FF then [0xC0 + n / 0x40, 0x80 + n % 0x40]
  else if n ≤ 0xFFFF then
    [0xE0 + n / 0x1000, 0x80 + (n / 0x40) % 0x40, 0x80 + n % 0x40]
  else
    [0xF0 + n / 0x40000, 0x80 + (n / 0x1000) % 0x40, 0x80 + (n / 0x40) % 0x40,
      0x80 + n % 0x40]

/-- `TextEncoder.encode` on a list of characters. -/
def encChars (cs : List Char) : List Nat := cs.flatMap utf8EncodeChar

/-- `TextEncoder.encode` on a string. -/
def encStr (s : String) : List Nat := encChars s.data

/-- Decoding an encoded character consumes exactly its bytes. -/
theorem utf8Decode_encChar (c : Char) (rest : List Nat) :
    utf8Decode (utf8EncodeChar c ++ rest) = c :: utf8Decode rest := by
  have hv : c.toNat < 0xD800 ∨ (0xDFFF < c.toNat ∧ c.toNat < 0x110000) := c.valid
  by_cases h7 : c.toNat ≤ 0x7F
  · have henc : utf8EncodeChar c = [c.toNat] := by
      unfold utf8EncodeChar; simp [h7]
    rw [henc]
    show utf8Decode (c.toNat :: rest) = c :: utf8Decode rest
    rw [utf8Decode.eq_def]
    simp only []
    simp only [if_pos h7, Char.ofNat_toNat]
  · by_cases h11 : c.toNat ≤ 0x7FF
    · have henc : utf8EncodeChar c = [0xC0 + c.toNat / 0x40, 0x80 + c.toNat % 0x40] := by
        unfold utf8EncodeChar; simp [h7, h11]
      rw [henc]
      show utf8Decode (_ :: _ :: rest) = c :: utf8Decode rest
      rw [utf8Decode.eq_def]
      simp only []
      rw [if_neg (by omega), if_neg (by omega), if_pos (show 0xC0 + c.toNat / 0x40 ≤ 0xDF by
        omega)]
      rw [if_pos (show 0x80 ≤ 0x80 + c.toNat % 0x40 ∧ 0x80 + c.toNat % 0x40 ≤ 0xBF by omega)]
      have e : (0xC0 + c.toNat / 0x40 - 0xC0) * 0x40 + (0x80 + c.toNat % 0x40 - 0x80) =
          c.toNat := by omega
      rw [e, Char.ofNat_toNat]
    · by_cases h16 : c.toNat ≤ 0xFFFF
      · -- three bytes
        have henc : utf8EncodeChar c =
            [0xE0 + c.toNat / 0x1000, 0x80 + (c.toNat / 0x40) % 0x40,
              0x80 + c.toNat % 0x40] := by
          unfold utf8EncodeChar; simp [h7, h11, h16]
        rw [henc]
        show utf8Decode (_ :: _ :: _ :: rest) = c :: utf8Decode rest
        have hb1lo : utf8Lo (0xE0 + c.toNat / 0x1000) ≤ 0x80 + (c.toNat / 0x40) % 0x40 := by
          unfold utf8Lo
          by_cases hE0 : c.toNat / 0x1000 = 0
          · rw [if_pos (by omega)]; omega
          · rw [if_neg (by omega), if_neg (by omega)]; omega
        have hb1hi : 0x80 + (c.toNat / 0x40) % 0x40 ≤ utf8Hi (0xE0 + c.toNat / 0x1000) := by
          unfold utf8Hi
          by_cases hED : c.toNat / 0x1000 = 0xD
          · rw [if_pos (by omega)]; omega
          · rw [if_neg (by omega), if_neg (by omega)]; omega
        rw [utf8Decode.eq_def]
        simp only []
        rw [if_neg (by omega), if_neg (by omega), if_neg (by omega),
          if_pos (show 0xE0 + c.toNat / 0x1000 ≤ 0xEF by omega),
          if_pos ⟨hb1lo, hb1hi⟩,
          if_pos (show 0x80 ≤ 0x80 + c.toNat % 0x40 ∧ 0x80 + c.toNat % 0x40 ≤ 0xBF by omega)]
        have e : (0xE0 + c.toNat / 0x1000 - 0xE0) * 0x1000 +
            (0x80 + (c.toNat / 0x40) % 0x40 - 0x80) * 0x40 +
            (0x80 + c.toNat % 0x40 - 0x80) = c.toNat := by omega
        rw [e, Char.ofNat_toNat]
      · -- four bytes
        have henc : utf8EncodeChar c =
            [0xF0 + c.toNat / 0x40000, 0x80 + (c.toNat / 0x1000) % 0x40,
              0x80 + (c.toNat / 0x40) % 0x40, 0x80 + c.toNat % 0x40] := by
          unfold utf8EncodeChar; simp [h7, h11, h16]
        rw [henc]
        show utf8Decode (_ :: _ :: _ :: _ :: rest) = c :: utf8Decode rest
        have hb1lo : utf8Lo (0xF0 + c.toNat / 0x40000) ≤ 0x80 + (c.toNat / 0x1000) % 0x40 := by
          unfold utf8Lo
          by_cases hF0 : c.toNat / 0x40000 = 0
          · rw [if_neg (by omega), if_pos (by omega)]; omega
          · rw [if_neg (by omega), if_neg (by omega)]; omega
        have hb1hi : 0x80 + (c.toNat / 0x1000) % 0x40 ≤ utf8Hi (0xF0 + c.toNat / 0x40000) := by
          unfold utf8Hi
          by_cases hF4 : c.toNat / 0x40000 = 4
          · rw [if_neg (by omega), if_pos (by omega)]; omega
          · rw [if_neg (by omega), if_neg (by omega)]; omega
        rw [utf8Decode.eq_def]
        simp only []
        rw [if_neg (by omega), if_neg (by omega), if_neg (by omega), if_neg (by omega),
          if_pos (show 0xF0 + c.toNat / 0x40000 ≤ 0xF4 by omega),
          if_pos ⟨hb1lo, hb1hi⟩,
          if_pos (show 0x80 ≤ 0x80 + (c.toNat / 0x40) % 0x40 ∧
            0x80 + (c.toNat / 0x40) % 0x40 ≤ 0xBF by omega),
          if_pos (show 0x80 ≤ 0x80 + c.toNat % 0x40 ∧ 0x80 + c.toNat % 0x40 ≤ 0xBF by omega)]
        have e : (0xF0 + c.toNat / 0x40000 - 0xF0) * 0x40000 +
            (0x80 + (c.toNat / 0x1000) % 0x40 - 0x80) * 0x1000 +
            (0x80 + (c.toNat / 0x40) % 0x40 - 0x80) * 0x40 +
            (0x80 + c.toNat % 0x40 - 0x80) = c.toNat := by omega
        rw [e, Char.ofNat_toNat]

/-- Characters with a valid scalar value round-trip through `Char.ofNat`. -/
theorem toNat_ofNat_of_valid (n : Nat)
    (h : n < 0xD800 ∨ (0xDFFF < n ∧ n < 0x110000)) : (Char.ofNat n).toNat = n := by
  unfold Char.ofNat
  rw [dif_pos h]
  rfl

/-- Decoding an encoded character list consumes exactly its bytes. -/
theorem utf8Decode_encChars (cs : List Char) (rest : List Nat) :
    utf8Decode (encChars cs ++ rest) = cs ++ utf8Decode rest := by
  induction cs with
  | nil => simp [encChars]
  | cons c cs ih =>
    show utf8Decode ((utf8EncodeChar c ++ encChars cs) ++ rest) = _
    rw [List.append_assoc, utf8Decode_encChar, ih]
    rfl

/-- UTF-8 decode inverts UTF-8 encode. -/
theorem utf8Decode_encChars_nil (cs : List Char) : utf8Decode (encChars cs) = cs := by
  have := utf8Decode_encChars cs []
  simpa [utf8Decode] using this

/-- `TextDecoder` inverts `TextEncoder` on strings. -/
theorem jsDecode_encStr (s : String) : jsDecode (encStr s) = s := by
  show (⟨utf8Decode (encChars s.data)⟩ : String) = s
  rw [utf8Decode_encChars_nil]

/-- An ASCII character encodes to its own single byte. -/
theorem utf8EncodeChar_ascii (c : Char) (h : c.toNat ≤ 0x7F) :
    utf8EncodeChar c = [c.toNat] := by
  unfold utf8EncodeChar
  simp [h]

/-- An ASCII character list encodes to its byte values. -/
theorem encChars_ascii (cs : List Char) (h : ∀ c ∈ cs, c.toNat ≤ 0x7F) :
    encChars cs = cs.map Char.toNat := by
  induction cs with
  | nil => rfl
  | cons c cs ih =>
    show utf8EncodeChar c ++ encChars cs = _
    rw [utf8EncodeChar_ascii c (h c (by simp)), ih (fun x hx => h x (by simp [hx]))]
    rfl

/-- Every byte of an encoded character is either ≥ 0x80 or the (ASCII)
scalar value of that character. -/
theorem mem_utf8EncodeChar (c : Char) (b : Nat) (hb : b ∈ utf8EncodeChar c) :
    0x80 ≤ b ∨ b = c.toNat := by
  unfold utf8EncodeChar at hb
  by_cases h7 : c.toNat ≤ 0x7F
  · simp [h7] at hb
    right; exact hb
  · by_cases h11 : c.toNat ≤ 0x7FF
    · simp [h7, h11] at hb
      left; rcases hb with h | h <;> omega
    · by_cases h16 : c.toNat ≤ 0xFFFF
      · simp [h7, h11, h16] at hb
        left; rcases hb with h | h | h <;> omega
      · simp [h7, h11, h16] at hb
        left; rcases hb with h | h | h | h <;> omega

/-- One decoding step: the decoder always emits one character and continues
on a tail of the input; an emitted ASCII character is literally the first
input byte. -/
theorem utf8Decode_cons_step (b : Nat) (bs : List Nat) :
    ∃ c k, utf8Decode (b :: bs) = c :: utf8Decode (bs.drop k) ∧
      (c.toNat ≤ 0x7F → c.toNat = b) := by
  have hrepl : replChar.toNat = 0xFFFD := by decide
  rw [utf8Decode.eq_def]
  simp only []
  by_cases h7 : b ≤ 0x7F
  · rw [if_pos h7]
    exact ⟨Char.ofNat b, 0, rfl, fun _ => toNat_ofNat_of_valid b (Or.inl (by omega))⟩
  · rw [if_neg h7]
    by_cases hC1 : b ≤ 0xC1
    · rw [if_pos hC1]
      exact ⟨replChar, 0, rfl, fun hc => absurd hc (by omega)⟩
    · rw [if_neg hC1]
      by_cases hDF : b ≤ 0xDF
      · rw [if_pos hDF]
        rcases bs with _ | ⟨b1, bs1⟩
        · exact ⟨replChar, 0, rfl, fun hc => absurd hc (by omega)⟩
        · simp only []
          by_cases hcont : 0x80 ≤ b1 ∧ b1 ≤ 0xBF
          · rw [if_pos hcont]
            refine ⟨Char.ofNat ((b - 0xC0) * 0x40 + (b1 - 0x80)), 1, rfl, fun hc => ?_⟩
            rw [toNat_ofNat_of_valid _ (Or.inl (by omega))] at hc
            omega
          · rw [if_neg hcont]
            exact ⟨replChar, 0, rfl, fun hc => absurd hc (by omega)⟩
      · rw [if_neg hDF]
        by_cases hEF : b ≤ 0xEF
        · rw [if_pos hEF]
          rcases bs with _ | ⟨b1, bs1⟩
          · exact ⟨replChar, 0, rfl, fun hc => absurd hc (by omega)⟩
          · simp only []
            by_cases hcont : utf8Lo b ≤ b1 ∧ b1 ≤ utf8Hi b
            · rw [if_pos hcont]
              rcases bs1 with _ | ⟨b2, bs2⟩
              · exact ⟨replChar, 1, rfl, fun hc => absurd hc (by omega)⟩
              · simp only []
                by_cases hcont2 : 0x80 ≤ b2 ∧ b2 ≤ 0xBF
                · rw [if_pos hcont2]
                  refine ⟨Char.ofNat ((b - 0xE0) * 0x1000 + (b1 - 0x80) * 0x40 + (b2 - 0x80)),
                    2, rfl, fun hc => ?_⟩
                  have hval : (b - 0xE0) * 0x1000 + (b1 - 0x80) * 0x40 + (b2 - 0x80) < 0xD800
                      ∨ (0xDFFF < (b - 0xE0) * 0x1000 + (b1 - 0x80) * 0x40 + (b2 - 0x80) ∧
                        (b - 0xE0) * 0x1000 + (b1 - 0x80) * 0x40 + (b2 - 0x80) < 0x110000) := by
                    by_cases hED : b = 0xED
                    · left
                      have : utf8Hi b = 0x9F := by unfold utf8Hi; rw [if_pos hED]
                      rw [this] at hcont
                      omega
                    · have hhi : utf8Hi b = 0x8F ∨ utf8Hi b = 0xBF := by
                        unfold utf8Hi
                        rw [if_neg hED]
                        by_cases h4 : b = 0xF4 <;> simp [h4]
                      by_cases hlt : (b - 0xE0) * 0x1000 + (b1 - 0x80) * 0x40 + (b2 - 0x80)
                          < 0xD800
                      · exact Or.inl hlt
                      · right
                        constructor
                        · -- value ≥ 0xD800 and b ≠ 0xED forces b ≥ 0xEE, value ≥ 0xE000
                          rcases hhi with h | h <;> omega
                        · rcases hhi with h | h <;> omega
                  rw [toNat_ofNat_of_valid _ hval] at hc
                  exfalso
                  by_cases hE0 : b = 0xE0
                  · have hlo : utf8Lo b = 0xA0 := by unfold utf8Lo; rw [if_pos hE0]
                    omega
                  · omega
                · rw [if_neg hcont2]
                  exact ⟨replChar, 1, rfl, fun hc => absurd hc (by omega)⟩
            · rw [if_neg hcont]
              exact ⟨replChar, 0, rfl, fun hc => absurd hc (by omega)⟩
        · rw [if_neg hEF]
          by_cases hF4 : b ≤ 0xF4
          · rw [if_pos hF4]
            rcases bs with _ | ⟨b1, bs1⟩
            · exact ⟨replChar, 0, rfl, fun hc => absurd hc (by omega)⟩
            · simp only []
              by_cases hcont : utf8Lo b ≤ b1 ∧ b1 ≤ utf8Hi b
              · rw [if_pos hcont]
                rcases bs1 with _ | ⟨b2, bs2⟩
                · exact ⟨replChar, 1, rfl, fun hc => absurd hc (by omega)⟩
                · simp only []
                  by_cases hcont2 : 0x80 ≤ b2 ∧ b2 ≤ 0xBF
                  · rw [if_pos hcont2]
                    rcases bs2 with _ | ⟨b3, bs3⟩
                    · exact ⟨replChar, 2, rfl, fun hc => absurd hc (by omega)⟩
                    · simp only []
                      by_cases hcont3 : 0x80 ≤ b3 ∧ b3 ≤ 0xBF
                      · rw [if_pos hcont3]
                        refine ⟨Char.ofNat ((b - 0xF0) * 0x40000 + (b1 - 0x80) * 0x1000 +
                          (b2 - 0x80) * 0x40 + (b3 - 0x80)), 3, rfl, fun hc => ?_⟩
                        have hlo : 0x90 ≤ b1 ∨ 0xF1 ≤ b := by
                          by_cases hF0 : b = 0xF0
                          · left
                            have : utf8Lo b = 0x90 := by
                              unfold utf8Lo; rw [if_neg (by omega), if_pos hF0]
                            omega
                          · right; omega
                        have hhi1 : b1 ≤ 0xBF := by
                          have : utf8Hi b ≤ 0xBF := by
                            unfold utf8Hi
                            by_cases hED : b = 0xED
                            · omega
                            · rw [if_neg hED]
                              by_cases h4 : b = 0xF4 <;> simp [h4]
                          omega
                        have hval4 : 0x10000 ≤ (b - 0xF0) * 0x40000 + (b1 - 0x80) * 0x1000 +
                            (b2 - 0x80) * 0x40 + (b3 - 0x80) := by
                          rcases hlo with h | h <;> omega
                        have hval4b : (b - 0xF0) * 0x40000 + (b1 - 0x80) * 0x1000 +
                            (b2 - 0x80) * 0x40 + (b3 - 0x80) < 0x110000 := by
                          by_cases h4 : b = 0xF4
                          · have : utf8Hi b = 0x8F := by
                              unfold utf8Hi; rw [if_neg (by omega), if_pos h4]
                            omega
                          · omega
                        rw [toNat_ofNat_of_valid _ (Or.inr ⟨by omega, hval4b⟩)] at hc
                        omega
                      · rw [if_neg hcont3]
                        exact ⟨replChar, 2, rfl, fun hc => absurd hc (by omega)⟩
                  · rw [if_neg hcont2]
                    exact ⟨replChar, 1, rfl, fun hc => absurd hc (by omega)⟩
              · rw [if_neg hcont]
                exact ⟨replChar, 0, rfl, fun hc => absurd hc (by omega)⟩
          · rw [if_neg hF4]
            exact ⟨replChar, 0, rfl, fun hc => absurd hc (by omega)⟩

/-- ASCII characters in the decoder output originate from an input byte of
the same value. -/
theorem utf8Decode_ascii_mem :
    ∀ (bs : List Nat), ∀ c ∈ utf8Decode bs, c.toNat ≤ 0x7F → c.toNat ∈ bs := by
  have key : ∀ (n : Nat) (bs : List Nat), bs.length ≤ n →
      ∀ c ∈ utf8Decode bs, c.toNat ≤ 0x7F → c.toNat ∈ bs := by
    intro n
    induction n with
    | zero =>
      intro bs hlen c hc _
      rw [List.length_eq_zero.mp (Nat.le_zero.mp hlen)] at hc
      simp [utf8Decode] at hc
    | succ n ih =>
      intro bs hlen c hc hascii
      rcases bs with _ | ⟨b, bs'⟩
      · simp [utf8Decode] at hc
      · obtain ⟨c', k, heq, hsrc⟩ := utf8Decode_cons_step b bs'
        rw [heq] at hc
        rcases List.mem_cons.mp hc with h | h
        · subst h
          exact List.mem_cons.mpr (Or.inl (hsrc hascii))
        · have hlen' : (bs'.drop k).length ≤ n := by
            simp at hlen
            have h2 : (bs'.drop k).length = bs'.length - k := List.length_drop k bs'
            omega
          have := ih (bs'.drop k) hlen' c h hascii
          exact List.mem_cons.mpr (Or.inr (List.mem_of_mem_drop this))
  exact fun bs => key bs.length bs le_rfl

/-! ## JS primitives: numbers and strings -/

/-- Decimal digit test (`[0-9]`), as used by `parseInt` and `String(n)`. -/
def isDecDigit (c : Char) : Bool := decide (48 ≤ c.toNat) && decide (c.toNat ≤ 57)

/-- The JS `StrWhiteSpace` set: characters skipped by `parseInt` and matched
by the `\s` regex class. -/
def isJsWhitespace (c : Char) : Bool :=
  decide (c.toNat = 0x9) || decide (c.toNat = 0xA) || decide (c.toNat = 0xB) ||
  decide (c.toNat = 0xC) || decide (c.toNat = 0xD) || decide (c.toNat = 0x20) ||
  decide (c.toNat = 0xA0) || decide (c.toNat = 0x1680) ||
  (decide (0x2000 ≤ c.toNat) && decide (c.toNat ≤ 0x200A)) ||
  decide (c.toNat = 0x2028) || decide (c.toNat = 0x2029) || decide (c.toNat = 0x202F) ||
  decide (c.toNat = 0x205F) || decide (c.toNat = 0x3000) || decide (c.toNat = 0xFEFF)

/-- Value of a (non-empty) decimal digit string. -/
def digitsToNat (l : List Char) : Nat := l.foldl (fun a c => a * 10 + (c.toNat - 48)) 0

/-- `parseInt(s, 10)`: skip `StrWhiteSpace`, optional sign, then the longest
decimal-digit run; `none` models the `NaN` result when no digit follows. -/
def jsParseInt (s : String) : Option Int :=
  let l := s.data.dropWhile isJsWhitespace
  match l with
  | '-' :: r =>
    let ds := r.takeWhile isDecDigit
    if ds = [] then none else some (-(digitsToNat ds : Int))
  | '+' :: r =>
    let ds := r.takeWhile isDecDigit
    if ds = [] then none else some ((digitsToNat ds : Int))
  | l' =>
    let ds := l'.takeWhile isDecDigit
    if ds = [] then none else some ((digitsToNat ds : Int))

/-- `s.substring(a, b)` for `a ≤ b` (the only way the source calls it):
characters `[a, b)`, clamped to the string length. -/
def jsSubstring (s : String) (a b : Nat) : String := ⟨(s.data.drop a).take (b - a)⟩

/-- Decimal digits of `n`, most significant first; `fuel` bounds the
recursion depth and any `fuel > n` is sufficient since `n / 10 < n` for
`n ≥ 10`. -/
def decDigits : Nat → Nat → List Char
  | 0, _ => []
  | fuel + 1, n =>
    if n < 10 then [Char.ofNat (48 + n)]
    else decDigits fuel (n / 10) ++ [Char.ofNat (48 + n % 10)]

/-- `String(n)` for a non-negative integer `n` (decimal rendering). -/
def decStr (n : Nat) : String := ⟨decDigits (n + 1) n⟩

/-- `s.padStart(n, '0')`. -/
def padStartZ (s : String) (n : Nat) : String :=
  ⟨List.replicate (n - s.data.length) '0' ++ s.data⟩

/-- `s.padEnd(n, ' ')`. -/
def padEndSp (s : String) (n : Nat) : String :=
  ⟨s.data ++ List.replicate (n - s.data.length) ' '⟩

/-- First UTF-16 code unit of a character (what `charCodeAt(0)` returns). -/
def utf16First (c : Char) : Nat :=
  if c.toNat < 0x10000 then c.toNat else 0xD800 + (c.toNat - 0x10000) / 0x400

/-- `charCodeAt(0)` coerced into a `Uint8Array` element (modulo 256). -/
def jsCharCodeByte (c : Char) : Nat := utf16First c % 256

/-- `decDigits` with sufficient fuel: non-empty, all digits, and
`digitsToNat` recovers the value. -/
theorem decDigits_spec : ∀ (fuel n : Nat), n < fuel →
    decDigits fuel n ≠ [] ∧ (∀ c ∈ decDigits fuel n, isDecDigit c = true) ∧
    digitsToNat (decDigits fuel n) = n := by
  intro fuel
  induction fuel with
  | zero => intro n h; omega
  | succ fuel ih =>
    intro n h
    by_cases h10 : n < 10
    · refine ⟨by simp [decDigits, h10], ?_, ?_⟩
      · intro c hc
        simp [decDigits, h10] at hc
        subst hc
        have : (Char.ofNat (48 + n)).toNat = 48 + n :=
          toNat_ofNat_of_valid _ (Or.inl (by omega))
        simp [isDecDigit, this]
        omega
      · have : (Char.ofNat (48 + n)).toNat = 48 + n :=
          toNat_ofNat_of_valid _ (Or.inl (by omega))
        simp [decDigits, h10, digitsToNat, this]
    · have hrec := ih (n / 10) (by omega)
      have hd : (Char.ofNat (48 + n % 10)).toNat = 48 + n % 10 :=
        toNat_ofNat_of_valid _ (Or.inl (by omega))
      refine ⟨by simp [decDigits, h10], ?_, ?_⟩
      · intro c hc
        simp [decDigits, h10] at hc
        rcases hc with hc | hc
        · exact hrec.2.1 c hc
        · subst hc
          simp [isDecDigit, hd]
          omega
      · have hstep : decDigits (fuel + 1) n =
            decDigits fuel (n / 10) ++ [Char.ofNat (48 + n % 10)] := by
          simp [decDigits, h10]
        rw [hstep]
        unfold digitsToNat
        rw [List.foldl_append]
        have : List.foldl (fun a c => a * 10 + (c.toNat - 48)) 0 (decDigits fuel (n / 10))
            = n / 10 := hrec.2.2
        rw [this]
        simp [hd]
        omega

/-- Length bound for decimal rendering: `n < 10^k` uses at most `k` digits. -/
theorem decDigits_length : ∀ (fuel n k : Nat), n < fuel → n < 10 ^ k → 1 ≤ k →
    (decDigits fuel n).length ≤ k := by
  intro fuel
  induction fuel with
  | zero => intro n k h; omega
  | succ fuel ih =>
    intro n k h hk h1
    by_cases h10 : n < 10
    · simp [decDigits, h10]
      omega
    · have hk2 : 2 ≤ k := by
        rcases Nat.lt_or_ge k 2 with hlt | hge
        · exfalso
          have hke : k = 1 := by omega
          rw [hke] at hk
          simp at hk
          omega
        · exact hge
      have hdiv : n / 10 < 10 ^ (k - 1) := by
        rw [Nat.div_lt_iff_lt_mul (show (0:Nat) < 10 by norm_num)]
        have hp : 10 ^ (k - 1) * 10 = 10 ^ k := by
          conv_rhs => rw [show k = (k - 1) + 1 by omega]
          rw [pow_succ]
        omega
      have := ih (n / 10) (k - 1) (by omega) hdiv (by omega)
      simp [decDigits, h10]
      omega

/-- A decimal digit is not JS whitespace. -/
theorem isDecDigit_not_ws (c : Char) (h : isDecDigit c = true) :
    isJsWhitespace c = false := by
  simp [isDecDigit] at h
  simp [isJsWhitespace]
  omega

/-- `takeWhile` keeps a list all of whose elements satisfy the predicate. -/
theorem takeWhile_eq_self_of_all {α : Type} (p : α → Bool) :
    ∀ l : List α, (∀ c ∈ l, p c = true) → l.takeWhile p = l := by
  intro l
  induction l with
  | nil => intro _; rfl
  | cons c r ih =>
    intro h
    rw [List.takeWhile_cons, if_pos (h c (by simp)), ih (fun x hx => h x (by simp [hx]))]

/-- Leading `'0'` characters do not change the value of a digit string. -/
theorem digitsToNat_replicate_zero :
    ∀ (j : Nat) (ds : List Char),
      digitsToNat (List.replicate j '0' ++ ds) = digitsToNat ds := by
  intro j
  induction j with
  | zero => intro ds; rfl
  | succ j ih =>
    intro ds
    show digitsToNat ('0' :: (List.replicate j '0' ++ ds)) = digitsToNat ds
    unfold digitsToNat
    show List.foldl _ ((0:Nat) * 10 + ('0'.toNat - 48)) _ = _
    have h0 : (0:Nat) * 10 + ('0'.toNat - 48) = 0 := by decide
    rw [h0]
    exact ih ds

/-- `parseInt(s, 10)` on a non-empty all-digit string returns its value. -/
theorem jsParseInt_digits (l : List Char) (hne : l ≠ [])
    (hd : ∀ c ∈ l, isDecDigit c = true) :
    jsParseInt ⟨l⟩ = some ((digitsToNat l : Nat) : Int) := by
  rcases l with _ | ⟨c, r⟩
  · exact absurd rfl hne
  have hcd : isDecDigit c = true := hd c (by simp)
  have hdrop : (c :: r).dropWhile isJsWhitespace = c :: r := by
    rw [List.dropWhile_cons, if_neg]
    rw [isDecDigit_not_ws c hcd]
    simp
  have hcm : c ≠ '-' := by
    intro hc
    subst hc
    simp [isDecDigit] at hcd
  have hcp : c ≠ '+' := by
    intro hc
    subst hc
    simp [isDecDigit] at hcd
  have htake : (c :: r).takeWhile isDecDigit = c :: r :=
    takeWhile_eq_self_of_all _ _ hd
  show jsParseInt ⟨c :: r⟩ = _
  unfold jsParseInt
  simp only [hdrop]
  split
  · rename_i heq
    exact absurd (List.head_eq_of_cons_eq heq.symm).symm hcm
  · rename_i heq
    exact absurd (List.head_eq_of_cons_eq heq.symm).symm hcp
  · rw [htake, if_neg (by simp)]

/-- The padded decimal rendering of `n` parses back to `n`. -/
theorem jsParseInt_padStartZ_decStr (n k : Nat) :
    jsParseInt (padStartZ (decStr n) k) = some ((n : Nat) : Int) := by
  obtain ⟨hne, hdig, hval⟩ := decDigits_spec (n + 1) n (by omega)
  have hd0 : isDecDigit '0' = true := by decide
  have hall : ∀ c ∈ List.replicate (k - (decStr n).data.length) '0' ++ (decStr n).data,
      isDecDigit c = true := by
    intro c hc
    rcases List.mem_append.mp hc with h | h
    · rw [List.eq_of_mem_replicate h]
      exact hd0
    · exact hdig c h
  have hne2 : List.replicate (k - (decStr n).data.length) '0' ++ (decStr n).data ≠ [] := by
    intro hc
    exact hne (by simpa using (List.append_eq_nil.mp hc).2)
  have := jsParseInt_digits _ hne2 hall
  show jsParseInt ⟨_⟩ = _
  rw [this, digitsToNat_replicate_zero]
  show some ((digitsToNat (decDigits (n + 1) n) : Nat) : Int) = _
  rw [hval]

/-- Exact length of the zero-padded decimal rendering. -/
theorem padStartZ_decStr_length (n k : Nat) (hk : 1 ≤ k) (hn : n < 10 ^ k) :
    (padStartZ (decStr n) k).data.length = k := by
  have hlen := decDigits_length (n + 1) n k (by omega) hn hk
  show (List.replicate (k - (decStr n).data.length) '0' ++ (decStr n).data).length = k
  rw [List.length_append, List.length_replicate]
  show k - (decDigits (n + 1) n).length + (decDigits (n + 1) n).length = k
  omega

/-- All characters of the zero-padded decimal rendering are digits (hence
ASCII). -/
theorem padStartZ_decStr_digits (n k : Nat) :
    ∀ c ∈ (padStartZ (decStr n) k).data, isDecDigit c = true := by
  obtain ⟨_, hdig, _⟩ := decDigits_spec (n + 1) n (by omega)
  intro c hc
  rcases List.mem_append.mp hc with h | h
  · rw [List.eq_of_mem_replicate h]
    decide
  · exact hdig c h

/-- Digits are ASCII. -/
theorem isDecDigit_ascii (c : Char) (h : isDecDigit c = true) : c.toNat ≤ 0x7F := by
  simp [isDecDigit] at h
  omega

/-! ## normalizeString (marc.js lines 49-65 / main.js lines 974-1000) -/

/-- Membership in the punctuation class stripped by the first `replace` of
`normalizeString`: `!"#$%&amp;'()*+,-./:;<=>?@[\]^_`{|}~`, i.e. the code-point
ranges 33-47, 58-64, 91-96 and 123-126. -/
def isStrippedPunct (n : Nat) : Bool :=
  (decide (33 ≤ n) && decide (n ≤ 47)) || (decide (58 ≤ n) && decide (n ≤ 64)) ||
  (decide (91 ≤ n) && decide (n ≤ 96)) || (decide (123 ≤ n) && decide (n ≤ 126))

/-- `toLowerCase` on an ASCII code point (the call site applies it after all
non-ASCII code points have been removed, where only `A`-`Z` are affected). -/
def asciiLowerCode (n : Nat) : Nat := if 65 ≤ n ∧ n ≤ 90 then n + 32 else n

/-- An ASCII lowercase letter code (the `[a-z]` regex class). -/
def isAsciiLetter (n : Nat) : Bool := decide (97 ≤ n) && decide (n ≤ 122)

/-- The `\s` regex class on code points (same set as `isJsWhitespace`). -/
def isJsWhitespaceCode (n : Nat) : Bool :=
  decide (n = 0x9) || decide (n = 0xA) || decide (n = 0xB) || decide (n = 0xC) ||
  decide (n = 0xD) || decide (n = 0x20) || decide (n = 0xA0) || decide (n = 0x1680) ||
  (decide (0x2000 ≤ n) && decide (n ≤ 0x200A)) || decide (n = 0x2028) ||
  decide (n = 0x2029) || decide (n = 0x202F) || decide (n = 0x205F) ||
  decide (n = 0x3000) || decide (n = 0xFEFF)

/-- The final step of `normalizeString`: find the first `[a-z]` match and
rotate the string so everything before that first letter moves to the end.
When no letter is present both parts below are `l` and `[]`, and the string
is returned unchanged, exactly as in the source. -/
def rotateAtFirstLetter (l : List Nat) : List Nat :=
  l.dropWhile (fun c => !isAsciiLetter c) ++ l.takeWhile (fun c => !isAsciiLetter c)

/-- `normalizeString` (identical in marc.js and main.js), on code points:
1. strip the fixed punctuation set;
2. `normalize('NFKD')`, then drop non-ASCII code points -- the NFKD
   per-code-point decomposition mapping is the parameter `nfkd`; the
   canonical reordering of combining marks that NFKD also performs is a
   permutation of the decomposed sequence, which cannot change the result
   because the surviving characters are sorted in step 5;
3. `toLowerCase` (pointwise on the now ASCII-only text);
4. remove `\s` whitespace;
5. sort the characters by code point (`split('').sort().join('')`);
6. rotate the leading non-letters to the end. -/
def normalizeCodes (nfkd : Nat → List Nat) (s : List Nat) : List Nat :=
  rotateAtFirstLetter
    (List.insertionSort (· ≤ ·)
      (List.filter (fun x => !isJsWhitespaceCode x)
        (List.map asciiLowerCode
          (List.filter (fun c => decide (c ≤ 0x7F))
            (List.flatMap (List.filter (fun c => !isStrippedPunct c) s) nfkd)))))

/-- `normalizeString` on strings.  All code points surviving step 2 are
ASCII, so re-assembling the result with `Char.ofNat` is faithful. -/
def normalizeString (nfkd : Nat → List Nat) (s : String) : String :=
  ⟨(normalizeCodes nfkd (s.data.map Char.toNat)).map Char.ofNat⟩

/-- NFKD restricted to ASCII code points, where the Unicode decomposition
is the identity; adequate for the all-ASCII inputs it is applied to in this
file. -/
def nfkdASCII : Nat → List Nat := fun c => [c]

/-- `flatMap` over a map that is pointwise the identity is the identity. -/
theorem flatMap_eq_self_of_ascii (nfkd : Nat → List Nat)
    (h : ∀ c, c ≤ 0x7F → nfkd c = [c]) :
    ∀ l : List Nat, (∀ c ∈ l, c ≤ 0x7F) → l.flatMap nfkd = l := by
  intro l
  induction l with
  | nil => intro _; rfl
  | cons c r ih =>
    intro hl
    show nfkd c ++ r.flatMap nfkd = c :: r
    rw [h c (hl c (by simp)), ih (fun x hx => hl x (by simp [hx]))]
    rfl

/-- C2 (counterexample): on the exact input `"Woolf, Virginia, 1882-1941"`
the normalization function returns `"afgiiilnoorvw11124889"` (all surviving
characters, digits included, are sorted by code point before the rotation),
not the spec's expected `"afiilnoorvw18821941"`, which drops the `g` and one
`i` and leaves the digits unsorted. -/
theorem claimC2_counterexample :
    normalizeString nfkdASCII "Woolf, Virginia, 1882-1941" = "afgiiilnoorvw11124889" ∧
    ("afgiiilnoorvw11124889" : String) ≠ "afiilnoorvw18821941" := by
  constructor
  · decide
  · decide

/-- C2 (amended): for every decomposition mapping that is the identity on
ASCII (as Unicode NFKD is), `normalizeString` maps the exact input
`"Woolf, Virginia, 1882-1941"` to exactly `"afgiiilnoorvw11124889"`. -/
theorem claimC2_normalize_woolf (nfkd : Nat → List Nat)
    (h : ∀ c, c ≤ 0x7F → nfkd c = [c]) :
    normalizeString nfkd "Woolf, Virginia, 1882-1941" = "afgiiilnoorvw11124889" := by
  unfold normalizeString normalizeCodes
  have ha : List.filter (fun c => !isStrippedPunct c)
      ("Woolf, Virginia, 1882-1941".data.map Char.toNat) =
      [87, 111, 111, 108, 102, 32, 86, 105, 114, 103, 105, 110, 105, 97, 32,
        49, 56, 56, 50, 49, 57, 52, 49] := by decide
  rw [ha, flatMap_eq_self_of_ascii nfkd h _ (by decide)]
  decide

theorem claimC2_normalize_woolf_witness :
    (∀ c, c ≤ 0x7F → nfkdASCII c = [c]) ∧
    normalizeString nfkdASCII "Woolf, Virginia, 1882-1941" = "afgiiilnoorvw11124889" :=
  ⟨fun _ _ => rfl, claimC2_normalize_woolf nfkdASCII (fun _ _ => rfl)⟩

/-- C9: `normalizeString` is invariant under every permutation of its
input's characters (whitespace included): after punctuation stripping, NFKD
decomposition, ASCII filtering, lowercasing and whitespace removal -- all of
which commute with permutation -- the surviving characters are sorted by
code point and then deterministically rotated at the first letter, so any
two inputs with the same character multiset normalize identically. -/
theorem claimC9_normalize_perm_invariant (nfkd : Nat → List Nat) (s t : String)
    (h : s.data.Perm t.data) :
    normalizeString nfkd s = normalizeString nfkd t := by
  unfold normalizeString normalizeCodes
  have h0 : (s.data.map Char.toNat).Perm (t.data.map Char.toNat) := h.map _
  have h1 := h0.filter (fun c => !isStrippedPunct c)
  have h2 := h1.flatMap_right nfkd
  have h3 := h2.filter (fun c => decide (c ≤ 0x7F))
  have h4 := h3.map asciiLowerCode
  have h5 := h4.filter (fun x => !isJsWhitespaceCode x)
  have hs : List.insertionSort (· ≤ ·)
        (List.filter (fun x => !isJsWhitespaceCode x)
          (List.map asciiLowerCode
            (List.filter (fun c => decide (c ≤ 0x7F))
              (List.flatMap (List.filter (fun c => !isStrippedPunct c)
                (s.data.map Char.toNat)) nfkd)))) =
      List.insertionSort (· ≤ ·)
        (List.filter (fun x => !isJsWhitespaceCode x)
          (List.map asciiLowerCode
            (List.filter (fun c => decide (c ≤ 0x7F))
              (List.flatMap (List.filter (fun c => !isStrippedPunct c)
                (t.data.map Char.toNat)) nfkd)))) := by
    apply List.eq_of_perm_of_sorted (r := (· ≤ ·))
    · exact ((List.perm_insertionSort _ _).trans h5).trans
        (List.perm_insertionSort _ _).symm
    · exact List.sorted_insertionSort _ _
    · exact List.sorted_insertionSort _ _
  rw [hs]

theorem claimC9_normalize_perm_invariant_witness :
    ("Virginia Woolf".data.Perm " VWfgiilinoora".data) ∧
    normalizeString nfkdASCII "Virginia Woolf" =
      normalizeString nfkdASCII " VWfgiilinoora" :=
  ⟨by decide, claimC9_normalize_perm_invariant nfkdASCII _ _ (by decide)⟩

/-! ## levenshteinDistance (marc.js lines 19-44 / main.js lines 821-846) -/

/-- Inner loop (`j = 1..len2`) of the DP: given the previous row's entries
for the remaining columns (`prev`), the entry just computed to the left
(`left`) and the previous row's entry one column back (`diag`), emit the new
row's remaining entries (`min(up+1, left+1, diag+cost)` per column). -/
def levRow (c : Char) : List Char → List Nat → Nat → Nat → List Nat
  | y :: ys, up :: rest, left, diag =>
    min (up + 1) (min (left + 1) (diag + (if c = y then 0 else 1))) ::
      levRow c ys rest (min (up + 1) (min (left + 1) (diag + (if c = y then 0 else 1)))) up
  | _, _, _, _ => []

/-- `levenshteinDistance(str1, str2)`: row 0 is `0..len2`; each outer
iteration (`i = 1..len1`) starts its row with `matrix[i][0] = i` and fills
it with `levRow`; the result is `matrix[len1][len2]`. -/
def levenshteinDistance (str1 str2 : String) : Nat :=
  let l2 := str2.data
  let final := str1.data.foldl
    (fun acc c =>
      match acc with
      | (i, d :: rest) => (i + 1, (i + 1) :: levRow c l2 rest (i + 1) d)
      | (i, []) => (i + 1, []))
    ((0 : Nat), List.range (l2.length + 1))
  final.2.getD l2.length 0

/-! ## findBestLCCNMatch (marc.js lines 119-142) -/

/-- The value the lookup table yields for a trie id: either a bare numeric
identifier or an array of `[identifier, label]` pairs. -/
inductive LccnData where
  | single : Nat → LccnData
  | multi : List (Nat × String) → LccnData
deriving DecidableEq

deriving instance DecidableEq for Except

/-- The object returned by `findBestLCCNMatch`. -/
structure BestMatch where
  lccn : Nat
  label : Option String
  distance : Nat
deriving DecidableEq

/-- Scoring normalization (`x.toLowerCase().replace(/[^a-z0-9]/g, '')`).
`lower` is the Unicode `toLowerCase`; `asciiLower` below is its restriction
used at ASCII call sites. -/
def scoreNormalize (lower : String → String) (s : String) : String :=
  ⟨(lower s).data.filter (fun c =>
    (decide (97 ≤ c.toNat) && decide (c.toNat ≤ 122)) ||
    (decide (48 ≤ c.toNat) && decide (c.toNat ≤ 57)))⟩

/-- `toLowerCase` on ASCII text (`A`-`Z` to `a`-`z`, all else unchanged). -/
def asciiLower (s : String) : String :=
  ⟨s.data.map (fun c => Char.ofNat (asciiLowerCode c.toNat))⟩

/-- The distance the loop computes for one candidate `[lccn, label]` pair:
Levenshtein distance between the normalized input and normalized label. -/
def itemDistance (lower : String → String) (normalizedInput : String)
    (item : Nat × String) : Nat :=
  levenshteinDistance normalizedInput (scoreNormalize lower item.2)

/-- One iteration of the candidate loop.  `bestDistance` starts at
`Infinity`, modelled by `none`: the first candidate always wins; afterwards
only a strictly smaller distance replaces the current best. -/
def bestStep (lower : String → String) (normalizedInput : String)
    (bestMatch : Option BestMatch) (item : Nat × String) : Option BestMatch :=
  match bestMatch with
  | none => some ⟨item.1, some item.2, itemDistance lower normalizedInput item⟩
  | some b =>
    if itemDistance lower normalizedInput item < b.distance then
      some ⟨item.1, some item.2, itemDistance lower normalizedInput item⟩
    else some b

/-- `findBestLCCNMatch(originalName, lccnData)`: a non-array value is
returned directly with distance 0; for an array the loop selects the
strictly-improving minimum (hence the first minimum), and for an empty
array it returns `null` (`none`). -/
def findBestLCCNMatch (lower : String → String) (originalName : String)
    (lccnData : LccnData) : Option BestMatch :=
  match lccnData with
  | .single l => some ⟨l, none, 0⟩
  | .multi items =>
    items.foldl (bestStep lower (scoreNormalize lower originalName)) none

/-! ## Subfield maps and extractNameFromSubfields (marc.js lines 70-81) -/

/-- A subfield value in the JS object: a plain string after the first
occurrence of a code, or an array once a code repeats. -/
inductive SubVal where
  | single : String → SubVal
  | multi : List String → SubVal
deriving DecidableEq

/-- The `field.subfields` object: insertion-ordered bindings from one-character
codes to values (object keys are unique). -/
abbrev SubMap := List (Char × SubVal)

/-- JS truthiness of a subfield value: the empty string is falsy, every
array is truthy. -/
def subTruthy : SubVal → Bool
  | .single s => !(s == "")
  | .multi _ => true

/-- `String(value)`: a string is itself; an array stringifies as its
elements joined by `","` (which is what `Array.prototype.join(' ')` applies
to an array element). -/
def subToString : SubVal → String
  | .single s => s
  | .multi l => String.intercalate "," l

/-- `String.prototype.trim` (strips JS whitespace from both ends). -/
def jsTrim (s : String) : String :=
  ⟨((s.data.dropWhile isJsWhitespace).reverse.dropWhile isJsWhitespace).reverse⟩

/-- `extractNameFromSubfields(subfields)`: for the codes `a,b,c,q,d,g` in
that fixed order, push the (truthy) raw value; `parts.join(' ')`
stringifies each part and joins with one space; then trim. -/
def extractNameFromSubfields (subfields : SubMap) : String :=
  jsTrim (String.intercalate " "
    (((['a', 'b', 'c', 'q', 'd', 'g'] : List Char).foldl
      (fun parts code =>
        match subfields.lookup code with
        | some v => if subTruthy v then parts ++ [v] else parts
        | none => parts)
      ([] : List SubVal)).map subToString))

/-! ## convertLCCN / createLCCNUri (marc.js lines 86-114) -/

/-- The `prefixMap` object lookup on the first decimal digit. -/
def lccnPrefixFor (c : Char) : Option String :=
  if c = '1' then some "nb"
  else if c = '2' then some "nn"
  else if c = '3' then some "no"
  else if c = '4' then some "nr"
  else if c = '5' then some "ns"
  else if c = '6' then some "n"
  else none

/-- `convertLCCN(numericLccn)`: stringify, map the first digit through
`prefixMap`, return `null` on an unmapped digit, otherwise prepend the
prefix to the remaining digits. -/
def convertLCCN (numericLccn : Nat) : Option String :=
  match (decStr numericLccn).data with
  | [] => none
  | c :: rest =>
    match lccnPrefixFor c with
    | none => none
    | some p => some (p ++ String.mk rest)

/-- `createLCCNUri(numericLccn)`. -/
def createLCCNUri (numericLccn : Nat) : Option String :=
  match convertLCCN numericLccn with
  | none => none
  | some converted => some ("http://id.loc.gov/authorities/names/" ++ converted)

/-! ## The per-field body of processMARCFile (marc.js lines 628-718) -/

/-- The fixed acceptance threshold (marc.js line 14). -/
def MAX_LEVENSHTEIN_DISTANCE : Nat := 10

/-- The poor-match test applied by the pipeline
(`match.distance > MAX_LEVENSHTEIN_DISTANCE`, line 672). -/
def isPoorMatch (m : BestMatch) : Bool :=
  decide (MAX_LEVENSHTEIN_DISTANCE < m.distance)

/-- JS falsiness of the candidate-table result in `if (!lccnData)`:
`null`/`undefined` is modelled by `none` at the call site; of the present
values, the number `0` is falsy and every array is truthy. -/
def lccnDataFalsy : LccnData → Bool
  | .single n => n == 0
  | .multi _ => false

/-- `field.subfields['0'] = uri` (and the bookkeeping part of
`updateSubfieldZero`): replace the value in place if the key exists,
otherwise append a new binding. -/
def sfAssign (m : SubMap) (c : Char) (v : SubVal) : SubMap :=
  if (m.lookup c).isSome then m.map (fun p => if p.1 = c then (c, v) else p)
  else m ++ [(c, v)]

/-- The body of the per-field processing loop for a name field that passed
the tag filter and the `field.subfields` guard: extract the name, skip
silently if it is empty, look the normalized key up in the trie, fetch the
candidate data, resolve the best match, apply the distance threshold,
convert the identifier, and only in the fully successful case set the `0`
subfield.  The result pairs the (possibly updated) subfield map with the
`status` of the report detail appended (`none` when the field is skipped
with no detail).  `.error ()` models the `TypeError` the code throws when
`findBestLCCNMatch` returns `null` (empty candidate array) and
`match.distance` is read. -/
def processField (nfkd : Nat → List Nat) (lower : String → String)
    (trieLookup : String → Int) (decoderGet : Int → Option LccnData)
    (subfields : SubMap) : Except Unit (SubMap × Option String) :=
  let name := extractNameFromSubfields subfields
  if name = "" then .ok (subfields, none)
  else
    let trieId := trieLookup (normalizeString nfkd name)
    if trieId = -1 then .ok (subfields, some "not_found")
    else
      match decoderGet trieId with
      | none => .ok (subfields, some "not_found")
      | some lccnData =>
        if lccnDataFalsy lccnData then .ok (subfields, some "not_found")
        else
          match findBestLCCNMatch lower name lccnData with
          | none => .error ()
          | some m =>
            if MAX_LEVENSHTEIN_DISTANCE < m.distance then
              .ok (subfields, some "poor_match")
            else
              match createLCCNUri m.lccn with
              | none => .ok (subfields, some "error")
              | some uri => .ok (sfAssign subfields '0' (.single uri), some "updated")

/-- Characterization of the candidate loop run from a current best `b`:
it returns the current best unchanged (when nothing improves on it), or the
first candidate attaining a strictly improved minimum distance. -/
theorem bestFold_spec (lower : String → String) (nInput : String) :
    ∀ (l : List (Nat × String)) (b : BestMatch),
    ∃ r, List.foldl (bestStep lower nInput) (some b) l = some r ∧
      r.distance ≤ b.distance ∧
      (∀ j (hj : j < l.length),
        r.distance ≤ itemDistance lower nInput (l.get ⟨j, hj⟩)) ∧
      (r = b ∨ ∃ (i : Nat) (hi : i < l.length),
        r = ⟨(l.get ⟨i, hi⟩).1, some (l.get ⟨i, hi⟩).2,
          itemDistance lower nInput (l.get ⟨i, hi⟩)⟩ ∧
        r.distance < b.distance ∧
        ∀ j (hj : j < l.length), j < i →
          r.distance < itemDistance lower nInput (l.get ⟨j, hj⟩)) := by
  intro l
  induction l with
  | nil =>
    intro b
    exact ⟨b, rfl, le_rfl, fun j hj => absurd hj (by simp), Or.inl rfl⟩
  | cons x xs ih =>
    intro b
    rw [List.foldl_cons]
    by_cases hx : itemDistance lower nInput x < b.distance
    · have hstep : bestStep lower nInput (some b) x =
          some ⟨x.1, some x.2, itemDistance lower nInput x⟩ := by
        unfold bestStep
        simp only []
        rw [if_pos hx]
      rw [hstep]
      obtain ⟨r, hfold, hrd, hrall, hcase⟩ :=
        ih ⟨x.1, some x.2, itemDistance lower nInput x⟩
      refine ⟨r, hfold, le_of_lt (lt_of_le_of_lt hrd hx), ?_, ?_⟩
      · intro j hj
        cases j with
        | zero => exact hrd
        | succ j' =>
          exact hrall j' (by simpa using hj)
      · right
        rcases hcase with heq | ⟨i', hi', hreq, hlt', hfirst'⟩
        · refine ⟨0, by simp, ?_, ?_, ?_⟩
          · simpa using heq
          · rw [heq]
            exact hx
          · intro j hj hj0
            omega
        · refine ⟨i' + 1, by simpa using hi', ?_, ?_, ?_⟩
          · simpa using hreq
          · exact lt_of_le_of_lt hrd hx
          · intro j hj hji
            cases j with
            | zero => exact hlt'
            | succ j' => exact hfirst' j' (by simpa using hj) (by omega)
    · have hstep : bestStep lower nInput (some b) x = some b := by
        unfold bestStep
        simp only []
        rw [if_neg hx]
      rw [hstep]
      obtain ⟨r, hfold, hrd, hrall, hcase⟩ := ih b
      refine ⟨r, hfold, hrd, ?_, ?_⟩
      · intro j hj
        cases j with
        | zero =>
          show r.distance ≤ itemDistance lower nInput x
          omega
        | succ j' => exact hrall j' (by simpa using hj)
      · rcases hcase with heq | ⟨i', hi', hreq, hlt', hfirst'⟩
        · exact Or.inl heq
        · right
          refine ⟨i' + 1, by simpa using hi', by simpa using hreq, hlt', ?_⟩
          intro j hj hji
          cases j with
          | zero =>
            show r.distance < itemDistance lower nInput x
            omega
          | succ j' => exact hfirst' j' (by simpa using hj) (by omega)

/-- `findBestLCCNMatch` on a non-empty candidate array returns the first
candidate of minimum normalized Levenshtein distance. -/
theorem findBestLCCNMatch_multi_spec (lower : String → String) (name : String)
    (items : List (Nat × String)) (h : items ≠ []) :
    ∃ (i : Nat) (hi : i < items.length),
      findBestLCCNMatch lower name (.multi items) =
        some ⟨(items.get ⟨i, hi⟩).1, some (items.get ⟨i, hi⟩).2,
          itemDistance lower (scoreNormalize lower name) (items.get ⟨i, hi⟩)⟩ ∧
      (∀ j (hj : j < items.length),
        itemDistance lower (scoreNormalize lower name) (items.get ⟨i, hi⟩) ≤
          itemDistance lower (scoreNormalize lower name) (items.get ⟨j, hj⟩)) ∧
      (∀ j (hj : j < items.length), j < i →
        itemDistance lower (scoreNormalize lower name) (items.get ⟨i, hi⟩) <
          itemDistance lower (scoreNormalize lower name) (items.get ⟨j, hj⟩)) := by
  rcases items with _ | ⟨x, xs⟩
  · exact absurd rfl h
  show ∃ _, _
  have hopen : findBestLCCNMatch lower name (.multi (x :: xs)) =
      List.foldl (bestStep lower (scoreNormalize lower name))
        (some ⟨x.1, some x.2,
          itemDistance lower (scoreNormalize lower name) x⟩) xs := by
    show List.foldl (bestStep lower (scoreNormalize lower name)) none (x :: xs) = _
    rw [List.foldl_cons]
    rfl
  obtain ⟨r, hfold, hrd, hrall, hcase⟩ :=
    bestFold_spec lower (scoreNormalize lower name) xs
      ⟨x.1, some x.2, itemDistance lower (scoreNormalize lower name) x⟩
  rcases hcase with heq | ⟨i', hi', hreq, hlt', hfirst'⟩
  · refine ⟨0, by simp, ?_, ?_, ?_⟩
    · rw [hopen, hfold, heq]
      rfl
    · intro j hj
      cases j with
      | zero => simp
      | succ j' =>
        have := hrall j' (by simpa using hj)
        rw [heq] at this
        simpa using this
    · intro j hj hj0
      omega
  · refine ⟨i' + 1, by simpa using hi', ?_, ?_, ?_⟩
    · rw [hopen, hfold, hreq]
      rfl
    · intro j hj
      cases j with
      | zero =>
        show itemDistance lower _ (xs.get ⟨i', hi'⟩) ≤ itemDistance lower _ x
        have : r.distance < itemDistance lower (scoreNormalize lower name) x := hlt'
        rw [hreq] at this
        exact le_of_lt this
      | succ j' =>
        have := hrall j' (by simpa using hj)
        rw [hreq] at this
        simpa using this
    · intro j hj hji
      cases j with
      | zero =>
        have : r.distance < itemDistance lower (scoreNormalize lower name) x := hlt'
        rw [hreq] at this
        exact this
      | succ j' =>
        have := hfirst' j' (by simpa using hj) (by omega)
        rw [hreq] at this
        simpa using this

/-- C3: for every original name and every non-empty candidate list of
`(identifier, label)` pairs, the resolver selects the pair whose label,
normalized by lowercasing and stripping characters outside `[a-z0-9]`, has
minimum Levenshtein distance to the equally normalized original name,
keeping the first-encountered pair on ties; the pipeline classifies the
outcome as a poor match exactly when that minimum strictly exceeds 10
(distance 10 is matched, 11 is poor), and on a poor match the field's
subfields are not mutated. -/
theorem claimC3_resolver_min_first_threshold (lower : String → String) (name : String)
    (items : List (Nat × String)) (h : items ≠ []) :
    ∃ (i : Nat) (hi : i < items.length) (r : BestMatch),
      findBestLCCNMatch lower name (.multi items) = some r ∧
      r = ⟨(items.get ⟨i, hi⟩).1, some (items.get ⟨i, hi⟩).2,
        itemDistance lower (scoreNormalize lower name) (items.get ⟨i, hi⟩)⟩ ∧
      (∀ j (hj : j < items.length),
        r.distance ≤ itemDistance lower (scoreNormalize lower name) (items.get ⟨j, hj⟩)) ∧
      (∀ j (hj : j < items.length), j < i →
        r.distance < itemDistance lower (scoreNormalize lower name) (items.get ⟨j, hj⟩)) ∧
      (isPoorMatch r = true ↔ 10 < r.distance) ∧
      (∀ (nfkd : Nat → List Nat) (trieLookup : String → Int)
          (decoderGet : Int → Option LccnData) (subfields : SubMap),
        extractNameFromSubfields subfields = name → name ≠ "" →
        trieLookup (normalizeString nfkd name) ≠ -1 →
        decoderGet (trieLookup (normalizeString nfkd name)) = some (.multi items) →
        10 < r.distance →
        processField nfkd lower trieLookup decoderGet subfields =
          .ok (subfields, some "poor_match")) := by
  obtain ⟨i, hi, heq, hall, hfirst⟩ := findBestLCCNMatch_multi_spec lower name items h
  refine ⟨i, hi, _, heq, rfl, hall, hfirst, ?_, ?_⟩
  · unfold isPoorMatch MAX_LEVENSHTEIN_DISTANCE
    simp
  · intro nfkd trieLookup decoderGet subfields hname hne htrie hdec hdist
    unfold processField
    simp only [hname]
    rw [if_neg hne, if_neg htrie, hdec]
    simp only []
    rw [if_neg (show ¬ (lccnDataFalsy (.multi items) = true) by simp [lccnDataFalsy])]
    rw [heq]
    simp only []
    rw [if_pos (show MAX_LEVENSHTEIN_DISTANCE <
      itemDistance lower (scoreNormalize lower name) (items.get ⟨i, hi⟩) from hdist)]

theorem claimC3_resolver_min_first_threshold_witness :
    ([((7 : Nat), "Woolf, Virginia")] : List (Nat × String)) ≠ [] ∧
    (∃ (i : Nat) (hi : i < ([((7 : Nat), "Woolf, Virginia")] : List (Nat × String)).length)
      (r : BestMatch),
      findBestLCCNMatch asciiLower "Virginia Woolf" (.multi [((7 : Nat), "Woolf, Virginia")]) =
        some r ∧
      r = ⟨([((7 : Nat), "Woolf, Virginia")].get ⟨i, hi⟩).1,
        some ([((7 : Nat), "Woolf, Virginia")].get ⟨i, hi⟩).2,
        itemDistance asciiLower (scoreNormalize asciiLower "Virginia Woolf")
          ([((7 : Nat), "Woolf, Virginia")].get ⟨i, hi⟩)⟩ ∧
      (∀ j (hj : j < ([((7 : Nat), "Woolf, Virginia")] : List (Nat × String)).length),
        r.distance ≤ itemDistance asciiLower (scoreNormalize asciiLower "Virginia Woolf")
          ([((7 : Nat), "Woolf, Virginia")].get ⟨j, hj⟩)) ∧
      (∀ j (hj : j < ([((7 : Nat), "Woolf, Virginia")] : List (Nat × String)).length), j < i →
        r.distance < itemDistance asciiLower (scoreNormalize asciiLower "Virginia Woolf")
          ([((7 : Nat), "Woolf, Virginia")].get ⟨j, hj⟩)) ∧
      (isPoorMatch r = true ↔ 10 < r.distance) ∧
      (∀ (nfkd : Nat → List Nat) (trieLookup : String → Int)
          (decoderGet : Int → Option LccnData) (subfields : SubMap),
        extractNameFromSubfields subfields = "Virginia Woolf" → "Virginia Woolf" ≠ "" →
        trieLookup (normalizeString nfkd "Virginia Woolf") ≠ -1 →
        decoderGet (trieLookup (normalizeString nfkd "Virginia Woolf")) =
          some (.multi [((7 : Nat), "Woolf, Virginia")]) →
        10 < r.distance →
        processField nfkd asciiLower trieLookup decoderGet subfields =
          .ok (subfields, some "poor_match"))) :=
  ⟨by decide,
    claimC3_resolver_min_first_threshold asciiLower "Virginia Woolf"
      [((7 : Nat), "Woolf, Virginia")] (by decide)⟩

/-- C10: candidate resolution is total only for non-empty candidate lists:
every non-empty `(identifier, label)` array yields a non-null best match
(with a finite distance, since the model's distances are natural numbers),
but the empty array yields `null`, and the pipeline's subsequent read of
`match.distance` then faults (modelled by `.error ()`) instead of producing
a report entry -- an unstated precondition that the candidate table never
returns an empty list. -/
theorem claimC10_empty_candidates_fault :
    (∀ (lower : String → String) (name : String) (items : List (Nat × String)),
      items ≠ [] → ∃ r, findBestLCCNMatch lower name (.multi items) = some r) ∧
    (∀ (lower : String → String) (name : String),
      findBestLCCNMatch lower name (.multi []) = none) ∧
    (∀ (nfkd : Nat → List Nat) (lower : String → String) (trieLookup : String → Int)
        (decoderGet : Int → Option LccnData) (subfields : SubMap),
      extractNameFromSubfields subfields ≠ "" →
      trieLookup (normalizeString nfkd (extractNameFromSubfields subfields)) ≠ -1 →
      decoderGet (trieLookup (normalizeString nfkd (extractNameFromSubfields subfields))) =
        some (.multi []) →
      processField nfkd lower trieLookup decoderGet subfields = .error ()) := by
  refine ⟨?_, ?_, ?_⟩
  · intro lower name items h
    obtain ⟨i, hi, heq, _, _⟩ := findBestLCCNMatch_multi_spec lower name items h
    exact ⟨_, heq⟩
  · intro lower name
    rfl
  · intro nfkd lower trieLookup decoderGet subfields hne htrie hdec
    unfold processField
    rw [if_neg hne, if_neg htrie, hdec]
    simp only []
    rw [if_neg (show ¬ (lccnDataFalsy (.multi []) = true) by simp [lccnDataFalsy])]
    rfl

theorem claimC10_empty_candidates_fault_witness :
    (([((7 : Nat), "x")] : List (Nat × String)) ≠ [] ∧
      ∃ r, findBestLCCNMatch asciiLower "y" (.multi [((7 : Nat), "x")]) = some r) ∧
    (extractNameFromSubfields [('a', SubVal.single "Woolf")] ≠ "" ∧
      ((fun _ => (3 : Int)) (normalizeString nfkdASCII
        (extractNameFromSubfields [('a', SubVal.single "Woolf")])) ≠ -1) ∧
      processField nfkdASCII asciiLower (fun _ => (3 : Int))
        (fun _ => some (.multi [])) [('a', SubVal.single "Woolf")] = .error ()) := by
  constructor
  · exact ⟨by decide, claimC10_empty_candidates_fault.1 asciiLower "y"
      [((7 : Nat), "x")] (by decide)⟩
  · refine ⟨by decide, by decide, ?_⟩
    exact claimC10_empty_candidates_fault.2.2 nfkdASCII asciiLower (fun _ => (3 : Int))
      (fun _ => some (.multi [])) [('a', SubVal.single "Woolf")] (by decide) (by decide) rfl

/-- C8: during processing a field's subfield map is changed only when the
outcome is a within-threshold match, in which case its `0` subfield is set
to the computed URI; for every reported non-update outcome (`not_found`
from the trie or from missing candidate data, `poor_match`, and the
`error` status for an unconvertible identifier) a report detail is produced
but the subfields are returned unchanged, and a field skipped for an empty
name is also unchanged. -/
theorem claimC8_mutation_only_on_match (nfkd : Nat → List Nat) (lower : String → String)
    (trieLookup : String → Int) (decoderGet : Int → Option LccnData)
    (subfields m' : SubMap) :
    (∀ st, processField nfkd lower trieLookup decoderGet subfields = .ok (m', some st) →
      (st ≠ "updated" → m' = subfields) ∧
      (st = "updated" → ∃ uri,
        createLCCNUri uri ≠ none ∧
        m' = sfAssign subfields '0'
          (.single ("http://id.loc.gov/authorities/names/" ++
            ((convertLCCN uri).getD ""))))) ∧
    (processField nfkd lower trieLookup decoderGet subfields = .ok (m', none) →
      m' = subfields) := by
  constructor
  · intro st heq
    unfold processField at heq
    dsimp only at heq
    split at heq
    · simp at heq
    · split at heq
      · rw [Except.ok.injEq, Prod.mk.injEq] at heq
        constructor
        · intro _
          exact heq.1.symm
        · intro hst
          exfalso
          have := heq.2
          rw [hst] at this
          simp at this
      · split at heq
        · rw [Except.ok.injEq, Prod.mk.injEq] at heq
          constructor
          · intro _
            exact heq.1.symm
          · intro hst
            exfalso
            have := heq.2
            rw [hst] at this
            simp at this
        · rename_i lccnData _
          split at heq
          · rw [Except.ok.injEq, Prod.mk.injEq] at heq
            constructor
            · intro _
              exact heq.1.symm
            · intro hst
              exfalso
              have := heq.2
              rw [hst] at this
              simp at this
          · split at heq
            · exact absurd heq (by simp)
            · rename_i m hm
              split at heq
              · rw [Except.ok.injEq, Prod.mk.injEq] at heq
                constructor
                · intro _
                  exact heq.1.symm
                · intro hst
                  exfalso
                  have := heq.2
                  rw [hst] at this
                  simp at this
              · split at heq
                · rw [Except.ok.injEq, Prod.mk.injEq] at heq
                  constructor
                  · intro _
                    exact heq.1.symm
                  · intro hst
                    exfalso
                    have := heq.2
                    rw [hst] at this
                    simp at this
                · rename_i uri huri
                  rw [Except.ok.injEq, Prod.mk.injEq] at heq
                  constructor
                  · intro hst
                    exfalso
                    apply hst
                    have := heq.2
                    simp at this
                    exact this.symm
                  · intro _
                    refine ⟨m.lccn, by rw [huri]; simp, ?_⟩
                    rw [← heq.1]
                    have hc : convertLCCN m.lccn ≠ none := by
                      intro hc
                      unfold createLCCNUri at huri
                      rw [hc] at huri
                      simp at huri
                    rcases hconv : convertLCCN m.lccn with _ | conv
                    · exact absurd hconv hc
                    · unfold createLCCNUri at huri
                      rw [hconv] at huri
                      simp only [Option.getD_some]
                      have : uri = "http://id.loc.gov/authorities/names/" ++ conv := by
                        simpa using huri.symm
                      rw [this]
  · intro heq
    unfold processField at heq
    dsimp only at heq
    split at heq
    · rw [Except.ok.injEq, Prod.mk.injEq] at heq
      exact heq.1.symm
    · split at heq
      · simp at heq
      · split at heq
        · simp at heq
        · split at heq
          · simp at heq
          · split at heq
            · simp at heq
            · split at heq
              · simp at heq
              · split at heq
                · simp at heq
                · simp at heq

theorem claimC8_mutation_only_on_match_witness :
    processField nfkdASCII asciiLower (fun _ => (-1 : Int)) (fun _ => none)
      [('a', SubVal.single "Woolf")] = .ok ([('a', SubVal.single "Woolf")], some "not_found") ∧
    ("not_found" : String) ≠ "updated" ∧
    ([('a', SubVal.single "Woolf")] : SubMap) = [('a', SubVal.single "Woolf")] := by
  refine ⟨by decide, by decide, ?_⟩
  exact ((claimC8_mutation_only_on_match nfkdASCII asciiLower (fun _ => (-1 : Int))
    (fun _ => none) [('a', SubVal.single "Woolf")] [('a', SubVal.single "Woolf")]).1
    "not_found" (by decide)).1 (by decide)

/-- C6: for every numeric identifier whose decimal representation starts
with the digit 1..6, URI conversion produces
`http://id.loc.gov/authorities/names/` followed by the mapped prefix
(`nb, nn, no, nr, ns, n` respectively) and the remaining digits verbatim
(`179041849` yields `.../nb79041849`, `279041849` yields `.../nn79041849`);
a first digit outside 1..6 (e.g. a leading 7, or the identifier 0) makes
conversion fail with no URI. -/
theorem claimC6_lccn_uri_conversion (n : Nat) :
    (∀ c p rest, (decStr n).data = c :: rest → lccnPrefixFor c = some p →
      createLCCNUri n =
        some ("http://id.loc.gov/authorities/names/" ++ p ++ String.mk rest)) ∧
    (∀ c rest, (decStr n).data = c :: rest → lccnPrefixFor c = none →
      createLCCNUri n = none) ∧
    createLCCNUri 179041849 = some "http://id.loc.gov/authorities/names/nb79041849" ∧
    createLCCNUri 279041849 = some "http://id.loc.gov/authorities/names/nn79041849" ∧
    createLCCNUri 779041849 = none ∧
    createLCCNUri 0 = none := by
  refine ⟨?_, ?_, by decide, by decide, by decide, by decide⟩
  · intro c p rest hds hp
    unfold createLCCNUri convertLCCN
    rw [hds]
    simp only [hp]
    rfl
  · intro c rest hds hp
    unfold createLCCNUri convertLCCN
    rw [hds]
    simp only [hp]

theorem claimC6_lccn_uri_conversion_witness :
    ((decStr 379041849).data = '3' :: "79041849".data ∧
      lccnPrefixFor '3' = some "no" ∧
      createLCCNUri 379041849 =
        some ("http://id.loc.gov/authorities/names/" ++ "no" ++
          String.mk "79041849".data)) ∧
    ((decStr 779041849).data = '7' :: "79041849".data ∧
      lccnPrefixFor '7' = none ∧
      createLCCNUri 779041849 = none) := by
  refine ⟨⟨by decide, by decide, ?_⟩, ⟨by decide, by decide, ?_⟩⟩
  · exact (claimC6_lccn_uri_conversion 379041849).1 '3' "no" "79041849".data
      (by decide) (by decide)
  · exact (claimC6_lccn_uri_conversion 779041849).2.1 '7' "79041849".data
      (by decide) (by decide)

/-- NameFieldExtraction as the specification words it: the values of
subfields `a,b,c,q,d,g` in that fixed order, each present subfield
contributing once per occurrence, the pieces joined by a single space and
the result trimmed. -/
def specNameExtraction (subfields : SubMap) : String :=
  jsTrim (String.intercalate " "
    ((['a', 'b', 'c', 'q', 'd', 'g'] : List Char).flatMap
      (fun code =>
        match subfields.lookup code with
        | some (SubVal.single s) => [s]
        | some (SubVal.multi l) => l
        | none => [])))

/-- C4 (counterexample): for a field whose `a` subfield occurs twice with
values `X` and `Y`, the code produces `"X,Y"` (the occurrences are
stringified as a JS array, i.e. joined by a comma with no space), not the
space-joined `"X Y"` of the claim. -/
theorem claimC4_counterexample :
    extractNameFromSubfields [('a', SubVal.multi ["X", "Y"])] = "X,Y" ∧
    specNameExtraction [('a', SubVal.multi ["X", "Y"])] = "X Y" ∧
    ("X,Y" : String) ≠ "X Y" := by
  refine ⟨by decide, by decide, by decide⟩

/-- NameFieldExtraction as amended: each of the codes `a,b,c,q,d,g` that is
present (and not bound to a single empty string, which JS truthiness skips)
contributes one piece -- its occurrences joined by a comma with no space --
and the pieces are joined by a single space and trimmed. -/
def amendedNameExtraction (subfields : SubMap) : String :=
  jsTrim (String.intercalate " "
    ((['a', 'b', 'c', 'q', 'd', 'g'] : List Char).filterMap
      (fun code =>
        match subfields.lookup code with
        | some v => if subTruthy v then some (subToString v) else none
        | none => none)))

/-- The part-collecting fold of `extractNameFromSubfields` is a
`filterMap`. -/
theorem extractParts_eq_filterMap (subfields : SubMap) :
    ∀ (codes : List Char) (acc : List SubVal),
      codes.foldl
        (fun parts code =>
          match subfields.lookup code with
          | some v => if subTruthy v then parts ++ [v] else parts
          | none => parts) acc =
      acc ++ codes.filterMap
        (fun code =>
          match subfields.lookup code with
          | some v => if subTruthy v then some v else none
          | none => none) := by
  intro codes
  induction codes with
  | nil => intro acc; simp
  | cons c cs ih =>
    intro acc
    rw [List.foldl_cons, List.filterMap_cons]
    cases hl : subfields.lookup c with
    | none =>
      simp only [hl]
      exact ih acc
    | some v =>
      by_cases ht : subTruthy v
      · simp only [hl, ht, if_true]
        rw [ih (acc ++ [v])]
        simp
      · simp only [hl, ht, if_false, Bool.false_eq_true]
        exact ih acc

/-- C4 (amended): for every field whose subfield map contains any of the
codes `a,b,c,q,d,g`, the extracted name equals the concatenation, in that
fixed order, of one piece per present (truthy) code -- a code's multiple
occurrences joined by a comma with no space -- with the pieces joined by a
single space and the result trimmed. -/
theorem claimC4_extract_name (subfields : SubMap)
    (_h : ∃ c ∈ (['a', 'b', 'c', 'q', 'd', 'g'] : List Char),
      (subfields.lookup c).isSome) :
    extractNameFromSubfields subfields = amendedNameExtraction subfields := by
  unfold extractNameFromSubfields amendedNameExtraction
  rw [extractParts_eq_filterMap subfields _ [], List.nil_append]
  congr 1
  congr 1
  rw [List.map_filterMap]
  have hfn : (fun code => Option.map subToString
      (match subfields.lookup code with
        | some v => if subTruthy v then some v else none
        | none => none)) =
      (fun code =>
        match subfields.lookup code with
        | some v => if subTruthy v then some (subToString v) else none
        | none => none) := by
    funext code
    cases hl : subfields.lookup code with
    | none => simp
    | some v =>
      by_cases ht : subTruthy v
      · simp [ht]
      · simp [ht]
  rw [hfn]

theorem claimC4_extract_name_witness :
    (∃ c ∈ (['a', 'b', 'c', 'q', 'd', 'g'] : List Char),
      (([('a', SubVal.multi ["X", "Y"]), ('d', SubVal.single "Z")] : SubMap).lookup c).isSome) ∧
    extractNameFromSubfields [('a', SubVal.multi ["X", "Y"]), ('d', SubVal.single "Z")] =
      amendedNameExtraction [('a', SubVal.multi ["X", "Y"]), ('d', SubVal.single "Z")] :=
  ⟨by decide, claimC4_extract_name _ (by decide)⟩

/-! ## detectFileType and the pipeline's format dispatch
(marc.js lines 541-596 and 750-761) -/

/-- `suffix.endsWith` on strings (character-list suffix test). -/
def jsEndsWith (s suffix : String) : Bool := decide (suffix.data.IsSuffix s.data)

/-- `detectFileType(file)`: decide by the lowercased file name's extension;
`.xml` is XML, `.mrc`/`.marc` is binary, and everything else falls through
to the `return 'xml'` default ("Try to detect by content / Default to XML
for now").  `lower` is `toLowerCase` (instantiated with `asciiLower` at the
ASCII call sites of this file). -/
def detectFileType (lower : String → String) (fileName : String) : String :=
  let name := lower fileName
  if jsEndsWith name ".xml" then "xml"
  else if jsEndsWith name ".mrc" || jsEndsWith name ".marc" then "binary"
  else "xml"

/-- Which of the three dispatch branches of `processMARCFile` runs for a
detected file type: the binary branch, the XML branch, or the
`throw new Error('Unsupported file type...')` branch. -/
inductive PipelinePath where
  | binaryPath : PipelinePath
  | xmlPath : PipelinePath
  | unsupportedFailure : PipelinePath
deriving DecidableEq

/-- The dispatch at the top of `processMARCFile` (lines 548, 560, 594):
`fileType === 'binary'`, then `fileType === 'xml'`, else throw. -/
def pipelineDispatch (fileType : String) : PipelinePath :=
  if fileType = "binary" then .binaryPath
  else if fileType = "xml" then .xmlPath
  else .unsupportedFailure

/-- C5 (counterexample): a file named `records.txt` -- an extension that is
none of `.mrc`, `.marc`, `.xml` -- is not rejected: `detectFileType`
defaults to `"xml"` and the pipeline takes the XML parse path, so an XML
parser is constructed and a decode is attempted instead of an
unsupported-format failure. -/
theorem claimC5_counterexample :
    detectFileType asciiLower "records.txt" = "xml" ∧
    pipelineDispatch (detectFileType asciiLower "records.txt") = PipelinePath.xmlPath ∧
    pipelineDispatch (detectFileType asciiLower "records.txt") ≠
      PipelinePath.unsupportedFailure := by
  refine ⟨by decide, by decide, by decide⟩

/-- C5 (amended): for every input file name (under any lowercasing
function), the detected type is `"binary"` exactly when the lowercased name
ends in `.mrc` or `.marc`; every other name -- unknown extensions included
-- is detected as `"xml"` and sent down the XML parse path, so the
pipeline's unsupported-format failure branch is unreachable. -/
theorem claimC5_unknown_extension_defaults_to_xml (lower : String → String)
    (fileName : String) :
    (detectFileType lower fileName = "binary" ∨
      detectFileType lower fileName = "xml") ∧
    pipelineDispatch (detectFileType lower fileName) ≠ PipelinePath.unsupportedFailure ∧
    (¬ jsEndsWith (lower fileName) ".xml" = true →
      ¬ jsEndsWith (lower fileName) ".mrc" = true →
      ¬ jsEndsWith (lower fileName) ".marc" = true →
      detectFileType lower fileName = "xml" ∧
      pipelineDispatch (detectFileType lower fileName) = PipelinePath.xmlPath) := by
  unfold detectFileType
  dsimp only
  by_cases hxml : jsEndsWith (lower fileName) ".xml" = true
  · rw [if_pos hxml]
    exact ⟨Or.inr rfl, by decide, fun hc _ _ => absurd hxml hc⟩
  · rw [if_neg hxml]
    by_cases hmrc : (jsEndsWith (lower fileName) ".mrc" ||
        jsEndsWith (lower fileName) ".marc") = true
    · rw [if_pos hmrc]
      refine ⟨Or.inl rfl, by decide, ?_⟩
      intro _ h1 h2
      exact absurd hmrc (by simp [Bool.eq_false_iff.mpr h1, Bool.eq_false_iff.mpr h2])
    · rw [if_neg hmrc]
      exact ⟨Or.inr rfl, by decide, fun _ _ _ => ⟨rfl, by decide⟩⟩

theorem claimC5_unknown_extension_defaults_to_xml_witness :
    (¬ jsEndsWith (asciiLower "records.txt") ".xml" = true) ∧
    (¬ jsEndsWith (asciiLower "records.txt") ".mrc" = true) ∧
    (¬ jsEndsWith (asciiLower "records.txt") ".marc" = true) ∧
    detectFileType asciiLower "records.txt" = "xml" ∧
    pipelineDispatch (detectFileType asciiLower "records.txt") = PipelinePath.xmlPath := by
  refine ⟨by decide, by decide, by decide, ?_⟩
  exact (claimC5_unknown_extension_defaults_to_xml asciiLower "records.txt").2.2
    (by decide) (by decide) (by decide)

/-! ## Binary MARC parser (marc.js lines 147-272) -/

/-- MARC21 binary format constants (marc.js lines 9-11). -/
def RECORD_TERMINATOR : Nat := 0x1D

def FIELD_TERMINATOR : Nat := 0x1E

def SUBFIELD_DELIMITER : Nat := 0x1F

/-- `String.fromCharCode` on one value (ToUint16, then the code unit; for
the byte values < 256 occurring here this is exactly the code point, and no
surrogate can arise). -/
def charFromCode (n : Nat) : Char := Char.ofNat (n % 0x10000)

/-- A parsed field.  The source also stores the raw directory length, the
field's absolute data offset and (for data fields) the raw bytes
(`field.length`, `field.offset`, `field.rawData`); nothing ever reads them
back (`rebuildRecord` re-derives everything from the parts modelled here),
so they are omitted. -/
inductive BinField where
  | control (tag : String) (data : String)
  | dataF (tag : String) (ind1 ind2 : Char) (subfields : SubMap)
deriving DecidableEq

/-- The `field.tag` property. -/
def BinField.tag : BinField → String
  | .control t _ => t
  | .dataF t _ _ _ => t

/-- A parsed record.  `record.rawData` (a copy of the input slice) is
likewise never read back and is omitted. -/
structure BinRecord where
  startOffset : Nat
  endOffset : Nat
  leader : String
  fields : List BinField
deriving DecidableEq

/-- The `subfields[code]` accumulation of `parseSubfields`: a first
occurrence stores the plain string; a repeated code converts the binding to
an array and appends. -/
def sfAccum (m : SubMap) (code : Char) (value : String) : SubMap :=
  match m.lookup code with
  | none => m ++ [(code, .single value)]
  | some (.single s) =>
    m.map (fun p => if p.1 = code then (code, .multi [s, value]) else p)
  | some (.multi l) =>
    m.map (fun p => if p.1 = code then (code, .multi (l ++ [value])) else p)

/-- `parseSubfields` (lines 240-272): scan for a subfield delimiter; the
next byte is the code (`fromCharCode(undefined)` is `'\0'` when the
delimiter is the last byte); the value runs to the next delimiter or field
terminator.  Fuel: every iteration consumes at least the head byte, so
`data.length + 1` is sufficient. -/
def parseSubfieldsAux : Nat → List Nat → SubMap → SubMap
  | 0, _, m => m
  | _ + 1, [], m => m
  | fuel + 1, b :: rest, m =>
    if b = SUBFIELD_DELIMITER then
      parseSubfieldsAux fuel
        ((rest.drop 1).drop
          ((rest.drop 1).takeWhile
            (fun x => !(x == SUBFIELD_DELIMITER) && !(x == FIELD_TERMINATOR))).length)
        (sfAccum m (charFromCode (rest.headD 0))
          (jsDecode ((rest.drop 1).takeWhile
            (fun x => !(x == SUBFIELD_DELIMITER) && !(x == FIELD_TERMINATOR)))))
    else parseSubfieldsAux fuel rest m

/-- `parseSubfields(data)`. -/
def parseSubfields (data : List Nat) : SubMap :=
  parseSubfieldsAux (data.length + 1) data []

/-- NaN-propagating JS addition; `none` is `NaN`. -/
def jadd : Option Int → Option Int → Option Int
  | some a, some b => some (a + b)
  | _, _ => none

/-- Resolution of one `Uint8Array.slice` argument: `NaN` converts to 0,
negatives count from the end, and the result is clamped to `[0, len]`. -/
def jsIdx (len : Nat) : Option Int → Nat
  | none => 0
  | some v => if v < 0 then (max ((len : Int) + v) 0).toNat else (min v (len : Int)).toNat

/-- `Uint8Array.prototype.slice(begin, end)` with possibly-NaN arguments. -/
def jsSlice (a : List Nat) (s e : Option Int) : List Nat :=
  (a.take (jsIdx a.length e)).drop (jsIdx a.length s)

/-- The `/^00/` control-field test on a tag. -/
def tagIsControl (tag : String) : Bool :=
  match tag.data with
  | '0' :: '0' :: _ => true
  | _ => false

/-- The directory loop of `parseRecord` (lines 206-235): `directoryOffset`
starts at `startOffset + 24` and advances by 12 while it is below
`startOffset + baseAddress - 1`; a `'\x1E'` or empty tag ends the
directory; field bytes are sliced from the whole buffer at
`startOffset + baseAddress + fieldStart` with NaN-tolerant arithmetic.
Fuel: inside the loop `baseAddress > 25`, the loop runs at most
`(baseAddress - 25) / 12 + 1 < baseAddress` times, so `base.toNat + 1` is
sufficient. -/
def parseDirLoop (data : List Nat) (start : Nat) (base : Int) :
    Nat → Nat → List BinField
  | 0, _ => []
  | fuel + 1, dirOff =>
    if (dirOff : Int) < (start : Int) + base - 1 then
      let tag := jsDecode ((data.drop dirOff).take 3)
      if tag = "\x1E" ∨ tag = "" then []
      else
        let fieldLength := jsParseInt (jsDecode ((data.drop (dirOff + 3)).take 4))
        let fieldStart := jsParseInt (jsDecode ((data.drop (dirOff + 7)).take 5))
        let fieldDataOffset : Option Int := jadd (some ((start : Int) + base)) fieldStart
        let fieldData := jsSlice data fieldDataOffset
          (jadd fieldDataOffset (jadd fieldLength (some (-1))))
        (if tagIsControl tag then BinField.control tag (jsDecode fieldData)
          else BinField.dataF tag (charFromCode (fieldData.getD 0 0))
            (charFromCode (fieldData.getD 1 0))
            (parseSubfields (fieldData.drop 2))) ::
          parseDirLoop data start base fuel (dirOff + 12)
    else []

/-- `parseRecord(startOffset)` (lines 180-238): decode the 24-byte leader,
parse the record length from its first five characters (`null` on `NaN` or
a non-positive value), parse the base address from characters 12-17
(unchecked: a `NaN` base address simply makes the directory loop run zero
times), then parse the directory. -/
def parseRecord (data : List Nat) (startOffset : Nat) : Option BinRecord :=
  let leader := jsDecode ((data.drop startOffset).take 24)
  match jsParseInt (jsSubstring leader 0 5) with
  | none => none
  | some recLen =>
    if recLen ≤ 0 then none
    else
      some ⟨startOffset, startOffset + recLen.toNat, leader,
        match jsParseInt (jsSubstring leader 12 17) with
        | none => []
        | some base => parseDirLoop data startOffset base (base.toNat + 1) (startOffset + 24)⟩

/-- The `parse()` scan (lines 154-178): stop at end of data, at a zero
byte, when fewer than 25 bytes remain, or when `parseRecord` fails; each
parsed record advances `offset` to its `endOffset`.  Fuel: a parsed record
has `recordLength ≥ 1`, so `offset` strictly increases and `data.length + 1`
iterations are sufficient. -/
def parseLoopAux (data : List Nat) : Nat → Nat → List BinRecord
  | 0, _ => []
  | fuel + 1, offset =>
    if offset < data.length then
      if data.getD offset 1 = 0 ∨ data.length ≤ offset + 24 then []
      else
        match parseRecord data offset with
        | some record => record :: parseLoopAux data fuel record.endOffset
        | none => []
    else []

/-- `parse()`. -/
def parse (data : List Nat) : List BinRecord := parseLoopAux data (data.length + 1) 0

/-! ## Binary MARC rebuild (marc.js lines 277-402) -/

/-- `Object.entries` enumeration order of a subfields object: integer-like
keys -- here, the single-digit codes `'0'`-`'9'` -- come first in ascending
numeric order, followed by the remaining keys in insertion order. -/
def jsEntries (m : SubMap) : SubMap :=
  List.insertionSort (fun a b => a.1 ≤ b.1) (m.filter (fun p => isDecDigit p.1)) ++
    m.filter (fun p => !isDecDigit p.1)

/-- The values iterated for one binding
(`Array.isArray(value) ? value : [value]`). -/
def subValues : SubVal → List String
  | .single s => [s]
  | .multi l => l

/-- The serialized bytes of one field including its field terminator
(`fieldDataWithTerminator`): a control field is its encoded text; a data
field is the two indicator bytes (`charCodeAt(0)` coerced by the
`Uint8Array` constructor, i.e. modulo 256) followed by
`0x1F, code, value-bytes` groups for every value of every subfield in
`Object.entries` order. -/
def rebuildField (f : BinField) : List Nat :=
  match f with
  | .control _ data => encStr data ++ [FIELD_TERMINATOR]
  | .dataF _ ind1 ind2 subfields =>
    [jsCharCodeByte ind1, jsCharCodeByte ind2] ++
      (jsEntries subfields).flatMap
        (fun p => (subValues p.2).flatMap
          (fun v => SUBFIELD_DELIMITER :: jsCharCodeByte p.1 :: encStr v)) ++
      [FIELD_TERMINATOR]

/-- One 12-byte directory entry: tag padded to 3 characters with spaces,
field length in 4 zero-padded digits, start offset in 5 zero-padded
digits (longer numbers simply produce longer entries, as in the source). -/
def dirEntry (tag : String) (len off : Nat) : List Nat :=
  encStr (padEndSp tag 3 ++ padStartZ (decStr len) 4 ++ padStartZ (decStr off) 5)

/-- The directory entries with the running `currentOffset`. -/
def dirEntries : List BinField → Nat → List (List Nat)
  | [], _ => []
  | f :: fs, currentOffset =>
    dirEntry f.tag (rebuildField f).length currentOffset ::
      dirEntries fs (currentOffset + (rebuildField f).length)

/-- `target.set(src, off)` on a fixed-length typed array: `none` models the
`RangeError` thrown when the source does not fit. -/
def tarrSet (arr src : List Nat) (off : Nat) : Option (List Nat) :=
  if off + src.length ≤ arr.length then
    some (arr.take off ++ src ++ arr.drop (off + src.length))
  else none

/-- The sequence of `directory.set(entry, dirOffset)` calls, `dirOffset`
advancing by 12 per entry regardless of the entry's actual length. -/
def writeEntries : List (List Nat) → List Nat → Nat → Option (List Nat)
  | [], arr, _ => some arr
  | e :: es, arr, off =>
    match tarrSet arr e off with
    | none => none
    | some arr2 => writeEntries es arr2 (off + 12)

/-- `rebuildRecord(record)` (lines 277-378).  The field-data block is the
plain concatenation of the per-field chunks (the source copies them with
exact-length `set` calls into a buffer of exactly their total length, which
cannot overflow); the directory is a zero-initialized buffer of
`12 * n + 1` bytes receiving the entries at stride 12 and the terminator at
index `12 * n`; the leader is rebuilt from the recomputed record length and
base address around the original leader's bytes 5-12 and 17-20 and the
literal entry map `4500`, padded/truncated to 24 characters.  `none` models
a `RangeError` from an overflowing `set` (an oversized directory entry or
leader). -/
def rebuildRecord (record : BinRecord) : Option (List Nat) :=
  let fieldData := (record.fields.map rebuildField).flatten
  let directoryLength := record.fields.length * 12 + 1
  match writeEntries (dirEntries record.fields 0) (List.replicate directoryLength 0) 0 with
  | none => none
  | some dir0 =>
    let directory := dir0.set (record.fields.length * 12) FIELD_TERMINATOR
    let baseAddress := 24 + directoryLength
    let recordLength := baseAddress + fieldData.length + 1
    let leaderStr := jsSubstring
      (padEndSp (padStartZ (decStr recordLength) 5 ++ jsSubstring record.leader 5 12 ++
        padStartZ (decStr baseAddress) 5 ++ jsSubstring record.leader 17 20 ++ "4500") 24)
      0 24
    match tarrSet (List.replicate recordLength 0) (encStr leaderStr) 0 with
    | none => none
    | some c1 =>
      match tarrSet c1 directory 24 with
      | none => none
      | some c2 =>
        match tarrSet c2 fieldData baseAddress with
        | none => none
        | some c3 => some (c3.set (recordLength - 1) RECORD_TERMINATOR)

/-- `exportBinary()` (lines 383-402): rebuild every parsed record and
concatenate (the source copies the rebuilt records with exact-length `set`
calls into a buffer of exactly their total length). -/
def exportBinary (records : List BinRecord) : Option (List Nat) :=
  match records.mapM rebuildRecord with
  | none => none
  | some parts => some parts.flatten

/-- Decoding a buffer that starts with a zero byte yields a string starting
with `'\0'`. -/
theorem utf8Decode_zero_cons (rest : List Nat) :
    utf8Decode (0 :: rest) = Char.ofNat 0 :: utf8Decode rest := by
  rw [utf8Decode.eq_def]
  simp only []
  rw [if_pos (by norm_num)]

/-- A record accepted by `parseRecord` at offset 0 cannot start with a zero
byte: the leader would then start with `'\0'` and its record length would
parse as `NaN`. -/
theorem parseRecord_head_ne_zero (data : List Nat) (r : BinRecord)
    (h : parseRecord data 0 = some r) (hlen : 0 < data.length) :
    data.getD 0 1 ≠ 0 := by
  intro h0
  rcases data with _ | ⟨b, rest⟩
  · simp at hlen
  have hb : b = 0 := by simpa using h0
  subst hb
  unfold parseRecord at h
  dsimp only at h
  have hlead : jsDecode (((0 :: rest).drop 0).take 24) =
      ⟨Char.ofNat 0 :: utf8Decode (rest.take 23)⟩ := by
    show jsDecode (0 :: rest.take 23) = _
    unfold jsDecode
    rw [utf8Decode_zero_cons]
  rw [hlead] at h
  have hsub : jsSubstring ⟨Char.ofNat 0 :: utf8Decode (rest.take 23)⟩ 0 5 =
      ⟨Char.ofNat 0 :: (utf8Decode (rest.take 23)).take 4⟩ := by
    unfold jsSubstring
    rfl
  rw [hsub] at h
  have hpi : jsParseInt ⟨Char.ofNat 0 :: (utf8Decode (rest.take 23)).take 4⟩ = none := by
    unfold jsParseInt
    have hws : isJsWhitespace (Char.ofNat 0) = false := by decide
    rw [List.dropWhile_cons, if_neg (by simp [hws])]
    dsimp only
    split
    · rename_i heq
      exact absurd (List.head_eq_of_cons_eq heq.symm) (by decide)
    · rename_i heq
      exact absurd (List.head_eq_of_cons_eq heq.symm) (by decide)
    · rw [List.takeWhile_cons,
        if_neg (show ¬ isDecDigit (Char.ofNat 0) = true by decide)]
      simp
  rw [hpi] at h
  simp at h

/-- The scan loop returns nothing when its stopping condition holds at the
current offset, for every fuel value. -/
theorem parseLoopAux_stop (data : List Nat) (off : Nat)
    (h : data.length ≤ off ∨ data.getD off 1 = 0 ∨ data.length ≤ off + 24 ∨
      parseRecord data off = none) :
    ∀ fuel, parseLoopAux data fuel off = [] := by
  intro fuel
  cases fuel with
  | zero => rfl
  | succ fuel =>
    unfold parseLoopAux
    by_cases hoff : off < data.length
    · rw [if_pos hoff]
      rcases h with h | h | h | h
      · omega
      · rw [if_pos (Or.inl h)]
      · rw [if_pos (Or.inr h)]
      · by_cases hbrk : data.getD off 1 = 0 ∨ data.length ≤ off + 24
        · rw [if_pos hbrk]
        · rw [if_neg hbrk, h]
    · rw [if_neg hoff]

/-- C7: binary decode is lenient per record: a buffer consisting of one
well-formed record (parsed at offset 0, spanning exactly the first
`good.length` bytes) followed by truncated or otherwise malformed trailing
bytes -- fewer than 25 bytes, a zero byte, or bytes on which `parseRecord`
fails -- parses to exactly that one record (so the report's `totalRecords`
is 1) without raising any error; and in general the scan ends at the first
offset where a record fails to decode, keeping everything parsed before
(the loop contributes `[]` from that offset on, whatever fuel remains). -/
theorem claimC7_lenient_parse (good trail : List Nat) (r : BinRecord)
    (hg : 24 < good.length)
    (h1 : parseRecord (good ++ trail) 0 = some r)
    (h2 : r.endOffset = good.length)
    (h3 : (good ++ trail).length ≤ good.length + 24 ∨
      (good ++ trail).getD good.length 1 = 0 ∨
      parseRecord (good ++ trail) good.length = none) :
    parse (good ++ trail) = [r] ∧
    (parse (good ++ trail)).length = 1 ∧
    (∀ (buf : List Nat) (fuel off : Nat),
      parseRecord buf off = none → parseLoopAux buf fuel off = []) := by
  have hlen : 24 < (good ++ trail).length := by
    rw [List.length_append]
    omega
  have hmain : parse (good ++ trail) = [r] := by
    unfold parse
    have hfuel : (good ++ trail).length + 1 = ((good ++ trail).length) + 1 := rfl
    unfold parseLoopAux
    rw [if_pos (by omega)]
    rw [if_neg (by
      push_neg
      refine ⟨parseRecord_head_ne_zero _ r h1 (by omega), by omega⟩)]
    rw [h1]
    simp only []
    rw [h2]
    rw [parseLoopAux_stop (good ++ trail) good.length (by
      rcases h3 with h | h | h
      · exact Or.inr (Or.inr (Or.inl h))
      · exact Or.inr (Or.inl h)
      · exact Or.inr (Or.inr (Or.inr h))) _]
  refine ⟨hmain, by rw [hmain]; rfl, ?_⟩
  intro buf fuel off hnone
  exact parseLoopAux_stop buf off (Or.inr (Or.inr (Or.inr hnone))) fuel

/-- A well-formed 44-byte sample record: leader, one directory entry for a
`100` data field of 6 bytes at offset 0, the directory terminator, the
field (`  ` indicators, `$a X`), and the record terminator. -/
def sampleRecordBytes : List Nat :=
  ("00044       00037   4500" ++ "100" ++ "0006" ++ "00000").data.map Char.toNat ++
    [0x1E, 0x20, 0x20, 0x1F, 0x61, 0x58, 0x1E, 0x1D]

/-- The parse of `sampleRecordBytes`. -/
def sampleRecord : BinRecord :=
  ⟨0, 44, "00044       00037   4500",
    [.dataF "100" ' ' ' ' [('a', .single "X")]]⟩

theorem claimC7_lenient_parse_witness :
    24 < sampleRecordBytes.length ∧
    parseRecord (sampleRecordBytes ++ [106, 117, 110, 107]) 0 = some sampleRecord ∧
    sampleRecord.endOffset = sampleRecordBytes.length ∧
    (sampleRecordBytes ++ [106, 117, 110, 107]).length ≤ sampleRecordBytes.length + 24 ∧
    parse (sampleRecordBytes ++ [106, 117, 110, 107]) = [sampleRecord] := by
  refine ⟨by decide, by decide, by decide, by decide, ?_⟩
  exact (claimC7_lenient_parse sampleRecordBytes [106, 117, 110, 107] sampleRecord
    (by decide) (by decide) (by decide) (Or.inl (by decide))).1

/-! ## C1: the binary codec round-trip -/

/-- A 44-byte buffer that decodes to one record but cannot be re-encoded:
its directory tag bytes `E4 85 85` decode to the single CJK character
`U+4145`, so the rebuilt directory entry (`tag.padEnd(3)` re-encoded) is 14
bytes instead of 12, and `directory.set(entry, 0)` on the 13-byte directory
buffer throws a `RangeError` (modelled by `none`). -/
def badTagRecordBytes : List Nat :=
  ("00044       00037   4500").data.map Char.toNat ++ [0xE4, 0x85, 0x85] ++
    ("0006" ++ "00000").data.map Char.toNat ++ [0x1E, 0x20, 0x20, 0x1F, 0x61, 0x58, 0x1E, 0x1D]

/-- C1 (counterexample): a byte buffer that decodes to a (non-empty)
sequence of records on which re-encoding produces no output at all --
`exportBinary` throws instead of producing internally consistent records,
so the round-trip property fails as stated for this buffer. -/
theorem claimC1_counterexample :
    (parse badTagRecordBytes).length = 1 ∧
    exportBinary (parse badTagRecordBytes) = none := by
  constructor
  · decide
  · decide

/-- Read `m` elements at offset `P.length + i` out of `P ++ (Q ++ R)`,
staying inside `Q`. -/
theorem read_at (P Q R : List Nat) (i m : Nat) (h : i + m ≤ Q.length) :
    ((P ++ (Q ++ R)).drop (P.length + i)).take m = (Q.drop i).take m := by
  rw [List.drop_append, List.drop_append_of_le_length (by omega),
    List.take_append_of_le_length (by rw [List.length_drop]; omega)]

/-- Setting the final element of `l ++ [x]`. -/
theorem set_last_append (l : List Nat) (x y : Nat) :
    (l ++ [x]).set l.length y = l ++ [y] := by
  rw [List.set_append, if_neg (by omega)]
  simp

/-- `tarrSet` into the zero padding that follows a prefix. -/
theorem tarrSet_append (X : List Nat) (k : Nat) (src : List Nat) (h : src.length ≤ k) :
    tarrSet (X ++ List.replicate k 0) src X.length =
      some (X ++ src ++ List.replicate (k - src.length) 0) := by
  unfold tarrSet
  rw [if_pos (by simp; omega)]
  congr 1
  rw [List.take_append_of_le_length (by omega), List.take_length,
    List.drop_append, List.drop_replicate]


/-! ## Round-trip of the subfield serialization -/

/-- A value string whose characters avoid the subfield-delimiter and
field-terminator code points (true of anything `parseSubfields` produced,
since those bytes end the value scan). -/
def cleanVal (s : String) : Prop :=
  ∀ c ∈ s.data, c.toNat ≠ SUBFIELD_DELIMITER ∧ c.toNat ≠ FIELD_TERMINATOR

/-- The serialized bytes of one subfield value. -/
def serializeVal (c : Char) (v : String) : List Nat :=
  SUBFIELD_DELIMITER :: jsCharCodeByte c :: encStr v

/-- The serialized subfield block of a data field, in the order the map is
given (for `rebuildField`, `Object.entries` order). -/
def serializeGroups (m : SubMap) : List Nat :=
  m.flatMap (fun p => (subValues p.2).flatMap (serializeVal p.1))

/-- `rebuildField` on a data field, named for the pieces. -/
theorem rebuildField_dataF (tag : String) (i1 i2 : Char) (subs : SubMap) :
    rebuildField (.dataF tag i1 i2 subs) =
      [jsCharCodeByte i1, jsCharCodeByte i2] ++
        serializeGroups (jsEntries subs) ++ [FIELD_TERMINATOR] := rfl

/-- Encoded clean values contain neither delimiter byte: multi-byte
sequences are all `≥ 0x80`, single bytes are the character itself. -/
theorem encStr_clean (s : String) (h : cleanVal s) :
    ∀ b ∈ encStr s, b ≠ SUBFIELD_DELIMITER ∧ b ≠ FIELD_TERMINATOR := by
  intro b hb
  obtain ⟨c, hc, hbc⟩ := List.mem_flatMap.mp hb
  rcases mem_utf8EncodeChar c b hbc with h80 | heq
  · constructor <;> intro he <;> (subst he; exact absurd h80 (by decide))
  · obtain ⟨h1, h2⟩ := h c hc
    subst heq
    exact ⟨h1, h2⟩

/-- The value scan of `parseSubfieldsAux` on clean bytes followed by either
nothing or a new delimiter reads exactly the clean bytes. -/
theorem takeWhile_value (X Y : List Nat)
    (hX : ∀ b ∈ X, b ≠ SUBFIELD_DELIMITER ∧ b ≠ FIELD_TERMINATOR)
    (hY : Y = [] ∨ ∃ t, Y = SUBFIELD_DELIMITER :: t) :
    (X ++ Y).takeWhile
      (fun x => !(x == SUBFIELD_DELIMITER) && !(x == FIELD_TERMINATOR)) = X := by
  rw [List.takeWhile_append]
  have hXt : X.takeWhile
      (fun x => !(x == SUBFIELD_DELIMITER) && !(x == FIELD_TERMINATOR)) = X :=
    takeWhile_eq_self_of_all _ X (by
      intro b hb
      obtain ⟨h1, h2⟩ := hX b hb
      simp [h1, h2])
  rw [if_pos (by rw [hXt])]
  rcases hY with hY | ⟨t, hY⟩
  · subst hY; simp
  · subst hY
    rw [List.takeWhile_cons, if_neg (by decide)]
    simp

/-- `lookup` misses a key absent from the key list. -/
theorem lookup_eq_none_of_keys (m : SubMap) (c : Char)
    (h : ∀ p ∈ m, p.1 ≠ c) : m.lookup c = none := by
  induction m with
  | nil => rfl
  | cons p rest ih =>
    rcases p with ⟨k, v⟩
    rw [List.lookup_cons]
    have hk : (c == k) = false := by
      have hne := h (k, v) (by simp)
      simp only [beq_eq_false_iff_ne, ne_eq]
      exact fun hc => hne (by simp [hc])
    rw [hk]
    exact ih (fun q hq => h q (by simp [hq]))

/-- Conversely, a missed key differs from every key in the list. -/
theorem keys_ne_of_lookup_eq_none (m : SubMap) (c : Char)
    (h : m.lookup c = none) : ∀ p ∈ m, p.1 ≠ c := by
  induction m with
  | nil => intro p hp; simp at hp
  | cons q rest ih =>
    intro p hp
    rcases q with ⟨k, v⟩
    rw [List.lookup_cons] at h
    by_cases hk : (c == k) = true
    · rw [hk] at h
      exact absurd h (by simp)
    · have hk' : (c == k) = false := by simpa using hk
      rw [hk'] at h
      rcases List.mem_cons.mp hp with hp | hp
      · subst hp
        simp only [beq_eq_false_iff_ne, ne_eq] at hk'
        exact fun he => hk' he.symm
      · exact ih h p hp

/-- `sfAccum` on a fresh code appends a `single` binding at the end. -/
theorem sfAccum_fresh (m : SubMap) (c : Char) (v : String)
    (h : m.lookup c = none) : sfAccum m c v = m ++ [(c, .single v)] := by
  unfold sfAccum
  rw [h]

/-- `sfAccum` on the code of the last binding, when that code does not
occur earlier, extends the last binding in place. -/
theorem sfAccum_last (m : SubMap) (c : Char) (val : SubVal) (v : String)
    (h : m.lookup c = none) :
    sfAccum (m ++ [(c, val)]) c v =
      m ++ [(c, match val with
        | .single s => SubVal.multi [s, v]
        | .multi l => SubVal.multi (l ++ [v]))] := by
  have hne := keys_ne_of_lookup_eq_none m c h
  have hl : (m ++ [(c, val)]).lookup c = some val := by
    rw [List.lookup_append, h, Option.none_or, List.lookup_cons]
    rw [show (c == c) = true from by simp]
  unfold sfAccum
  rw [hl]
  cases val with
  | single s =>
    show (m ++ [(c, SubVal.single s)]).map
        (fun p => if p.1 = c then (c, SubVal.multi [s, v]) else p) =
      m ++ [(c, SubVal.multi [s, v])]
    rw [List.map_append]
    congr 1
    · calc m.map (fun p => if p.1 = c then (c, SubVal.multi [s, v]) else p)
          = m.map id := List.map_congr_left (fun p hp => by
            rw [if_neg (hne p hp)]; rfl)
        _ = m := List.map_id m
    · simp
  | multi l =>
    show (m ++ [(c, SubVal.multi l)]).map
        (fun p => if p.1 = c then (c, SubVal.multi (l ++ [v])) else p) =
      m ++ [(c, SubVal.multi (l ++ [v]))]
    rw [List.map_append]
    congr 1
    · calc m.map (fun p => if p.1 = c then (c, SubVal.multi (l ++ [v])) else p)
          = m.map id := List.map_congr_left (fun p hp => by
            rw [if_neg (hne p hp)]; rfl)
        _ = m := List.map_id m
    · simp

/-- The `SubVal` built from a nonempty list of accumulated values: one
value stays a plain string, several became an array. -/
def mkVal : List String → SubVal
  | [v] => .single v
  | l => .multi l

/-- `sfAccum` in `mkVal` form: accumulating one more value for the code of
the last binding appends it to that binding's value list. -/
theorem sfAccum_last_mkVal (m : SubMap) (c : Char) (d : String)
    (ds : List String) (v : String) (h : m.lookup c = none) :
    sfAccum (m ++ [(c, mkVal (d :: ds))]) c v =
      m ++ [(c, mkVal (d :: ds ++ [v]))] := by
  rcases ds with _ | ⟨e, es⟩
  · rw [sfAccum_last m c _ v h]; rfl
  · rw [sfAccum_last m c _ v h]; rfl

/-- Reading back the byte written for a one-byte code yields the code. -/
theorem charFromCode_jsCharCodeByte (c : Char) (h : c.toNat < 256) :
    charFromCode (jsCharCodeByte c) = c := by
  unfold charFromCode jsCharCodeByte utf16First
  rw [if_pos (by omega)]
  rw [Nat.mod_eq_of_lt h, Nat.mod_eq_of_lt (by omega)]
  exact Char.ofNat_toNat c

/-- `parseSubfieldsAux` ignores the fuel on exhausted input. -/
theorem parseSubfieldsAux_nil (fuel : Nat) (m : SubMap) :
    parseSubfieldsAux fuel [] m = m := by
  cases fuel <;> rfl

/-- One serialized group step of `parseSubfieldsAux`: reading
`0x1F, code, encoded-value` accumulates the value and continues on the
remainder (which starts with the next delimiter or is empty). -/
theorem parseSubfieldsAux_step (fuel : Nat) (c : Char) (v : String)
    (R : List Nat) (m : SubMap) (hc : c.toNat < 256) (hv : cleanVal v)
    (hR : R = [] ∨ ∃ t, R = SUBFIELD_DELIMITER :: t) :
    parseSubfieldsAux (fuel + 1) (serializeVal c v ++ R) m =
      parseSubfieldsAux fuel R (sfAccum m c v) := by
  show parseSubfieldsAux (fuel + 1)
      (SUBFIELD_DELIMITER :: jsCharCodeByte c :: (encStr v ++ R)) m =
    parseSubfieldsAux fuel R (sfAccum m c v)
  conv_lhs => rw [parseSubfieldsAux.eq_def]
  simp only []
  rw [if_pos trivial]
  have htk : (((jsCharCodeByte c :: (encStr v ++ R)).drop 1).takeWhile
      (fun x => !(x == SUBFIELD_DELIMITER) && !(x == FIELD_TERMINATOR))) =
      encStr v := by
    show ((encStr v ++ R).takeWhile
      (fun x => !(x == SUBFIELD_DELIMITER) && !(x == FIELD_TERMINATOR))) = encStr v
    exact takeWhile_value (encStr v) R (encStr_clean v hv) hR
  rw [htk, jsDecode_encStr]
  show parseSubfieldsAux fuel ((encStr v ++ R).drop (encStr v).length)
      (sfAccum m (charFromCode (jsCharCodeByte c)) v) =
    parseSubfieldsAux fuel R (sfAccum m c v)
  rw [List.drop_left, charFromCode_jsCharCodeByte c hc]

/-- `parseSubfieldsAux` does not depend on the fuel once it is at least
the data length (each iteration consumes at least one byte). -/
theorem parseSubfieldsAux_fuel :
    ∀ (n : Nat) (data : List Nat) (fuel fuel' : Nat) (m : SubMap),
      data.length ≤ n → data.length ≤ fuel → data.length ≤ fuel' →
      parseSubfieldsAux fuel data m = parseSubfieldsAux fuel' data m := by
  intro n
  induction n with
  | zero =>
    intro data fuel fuel' m hn _ _
    have hd : data = [] := List.length_eq_zero.mp (by omega)
    subst hd
    rw [parseSubfieldsAux_nil, parseSubfieldsAux_nil]
  | succ n ih =>
    intro data fuel fuel' m hn hf hf'
    rcases data with _ | ⟨b, rest⟩
    · rw [parseSubfieldsAux_nil, parseSubfieldsAux_nil]
    · rcases fuel with _ | fuel
      · simp at hf
      rcases fuel' with _ | fuel'
      · simp at hf'
      show parseSubfieldsAux (fuel + 1) (b :: rest) m =
        parseSubfieldsAux (fuel' + 1) (b :: rest) m
      rw [parseSubfieldsAux.eq_def]
      conv_rhs => rw [parseSubfieldsAux.eq_def]
      simp only []
      by_cases hb : b = SUBFIELD_DELIMITER
      · rw [if_pos hb, if_pos hb]
        have hlen : ((rest.drop 1).drop
            ((rest.drop 1).takeWhile
              (fun x => !(x == SUBFIELD_DELIMITER) && !(x == FIELD_TERMINATOR))).length).length
            ≤ rest.length := by
          rw [List.length_drop, List.length_drop]
          omega
        apply ih
        · simp at hn; omega
        · simp at hf; omega
        · simp at hf'; omega
      · rw [if_neg hb, if_neg hb]
        apply ih
        · simp at hn; omega
        · simp at hf; omega
        · simp at hf'; omega

/-- A well-formed subfield value: clean strings, and arrays of length at
least two (exactly what `sfAccum` accumulation can produce). -/
def SubValWF : SubVal → Prop
  | .single s => cleanVal s
  | .multi l => 2 ≤ l.length ∧ ∀ v ∈ l, cleanVal v

/-- A well-formed value is `mkVal` of its nonempty, clean value list. -/
theorem mkVal_subValues (val : SubVal) (h : SubValWF val) :
    ∃ v vs, subValues val = v :: vs ∧ mkVal (v :: vs) = val ∧
      ∀ w ∈ v :: vs, cleanVal w := by
  cases val with
  | single s =>
    refine ⟨s, [], rfl, rfl, ?_⟩
    intro w hw
    rcases List.mem_cons.mp hw with hw | hw
    · subst hw; exact h
    · simp at hw
  | multi l =>
    obtain ⟨hlen, hcl⟩ := h
    rcases l with _ | ⟨a, _ | ⟨b, t⟩⟩
    · simp at hlen
    · simp at hlen
    · exact ⟨a, b :: t, rfl, rfl, hcl⟩

/-- The serialization of a list of groups is empty or starts with the
subfield delimiter. -/
theorem serialized_tail_shape (vs : List String) (c : Char) (more : List Nat)
    (hmore : more = [] ∨ ∃ t, more = SUBFIELD_DELIMITER :: t) :
    vs.flatMap (serializeVal c) ++ more = [] ∨
      ∃ t, vs.flatMap (serializeVal c) ++ more = SUBFIELD_DELIMITER :: t := by
  rcases vs with _ | ⟨w, ws⟩
  · simpa using hmore
  · right
    refine ⟨jsCharCodeByte c :: (encStr w ++ (ws.flatMap (serializeVal c) ++ more)), ?_⟩
    simp [serializeVal, List.flatMap_cons, List.cons_append, List.append_assoc]

/-- A serialized well-formed map is empty or starts with the delimiter. -/
theorem serializeGroups_shape (gs : SubMap) (h : ∀ p ∈ gs, SubValWF p.2) :
    serializeGroups gs = [] ∨
      ∃ t, serializeGroups gs = SUBFIELD_DELIMITER :: t := by
  rcases gs with _ | ⟨⟨c, val⟩, rest⟩
  · left; rfl
  · obtain ⟨v, vs, hsv, _, _⟩ := mkVal_subValues val (h (c, val) (by simp))
    right
    refine ⟨jsCharCodeByte c :: (encStr v ++
      (vs.flatMap (serializeVal c) ++ serializeGroups rest)), ?_⟩
    show (subValues val).flatMap (serializeVal c) ++ serializeGroups rest = _
    rw [hsv]
    simp [serializeVal, List.flatMap_cons, List.cons_append, List.append_assoc]

/-- Scanning the serialized remaining values of one binding whose code sits
in the accumulator's last slot appends all of them to that slot. -/
theorem parseSubfields_value_loop :
    ∀ (vs : List String) (fuel : Nat) (acc : SubMap) (c : Char)
      (d : String) (ds : List String) (more : List Nat),
      (vs.flatMap (serializeVal c) ++ more).length ≤ fuel →
      acc.lookup c = none → c.toNat < 256 →
      (∀ v ∈ vs, cleanVal v) →
      (more = [] ∨ ∃ t, more = SUBFIELD_DELIMITER :: t) →
      parseSubfieldsAux fuel (vs.flatMap (serializeVal c) ++ more)
        (acc ++ [(c, mkVal (d :: ds))]) =
      parseSubfieldsAux (more.length + 1) more
        (acc ++ [(c, mkVal ((d :: ds) ++ vs))]) := by
  intro vs
  induction vs with
  | nil =>
    intro fuel acc c d ds more hfuel hacc hc hclean hmore
    simp only [List.flatMap_nil, List.nil_append] at hfuel ⊢
    rw [List.append_nil]
    exact parseSubfieldsAux_fuel more.length more fuel (more.length + 1)
      (acc ++ [(c, mkVal (d :: ds))]) le_rfl hfuel (by omega)
  | cons v vs ih =>
    intro fuel acc c d ds more hfuel hacc hc hclean hmore
    have hshape : (v :: vs).flatMap (serializeVal c) ++ more =
        serializeVal c v ++ (vs.flatMap (serializeVal c) ++ more) := by
      simp [List.flatMap_cons, List.append_assoc]
    rw [hshape] at hfuel ⊢
    rcases fuel with _ | fuel
    · simp [serializeVal] at hfuel
    rw [parseSubfieldsAux_step fuel c v (vs.flatMap (serializeVal c) ++ more)
      (acc ++ [(c, mkVal (d :: ds))]) hc (hclean v (by simp))
      (serialized_tail_shape vs c more hmore)]
    rw [sfAccum_last_mkVal acc c d ds v hacc]
    simp only [List.cons_append]
    rw [ih fuel acc c d (ds ++ [v]) more
      (by simp [serializeVal] at hfuel; simp; omega) hacc hc
      (fun w hw => hclean w (List.mem_cons_of_mem v hw)) hmore]
    have hl : (d :: (ds ++ [v])) ++ vs = d :: (ds ++ v :: vs) := by simp
    rw [hl]

/-- Scanning a whole serialized well-formed map whose codes are fresh for
the accumulator appends all its bindings. -/
theorem parseSubfields_groups_loop :
    ∀ (groups : SubMap) (fuel : Nat) (acc : SubMap),
      (serializeGroups groups).length ≤ fuel →
      (∀ p ∈ groups, acc.lookup p.1 = none ∧ p.1.toNat < 256 ∧ SubValWF p.2) →
      (groups.map Prod.fst).Nodup →
      parseSubfieldsAux fuel (serializeGroups groups) acc = acc ++ groups := by
  intro groups
  induction groups with
  | nil =>
    intro fuel acc _ _ _
    show parseSubfieldsAux fuel [] acc = acc ++ []
    rw [parseSubfieldsAux_nil, List.append_nil]
  | cons g gs ih =>
    intro fuel acc hfuel hwf hnd
    rcases g with ⟨c, val⟩
    obtain ⟨hlook, hc, hvwf⟩ := hwf (c, val) (by simp)
    obtain ⟨v, vs, hsv, hmk, hcl⟩ := mkVal_subValues val hvwf
    have hnd2 : (c, val).1 ∉ gs.map Prod.fst ∧ (gs.map Prod.fst).Nodup := by
      rw [List.map_cons] at hnd
      exact List.nodup_cons.mp hnd
    obtain ⟨hnotin, hnd'⟩ := hnd2
    have hmore := serializeGroups_shape gs (fun p hp => (hwf p (by simp [hp])).2.2)
    have hshape : serializeGroups ((c, val) :: gs) =
        serializeVal c v ++ (vs.flatMap (serializeVal c) ++ serializeGroups gs) := by
      show (subValues val).flatMap (serializeVal c) ++ serializeGroups gs = _
      rw [hsv]
      simp [List.flatMap_cons, List.cons_append, List.append_assoc]
    rw [hshape] at hfuel ⊢
    rcases fuel with _ | fuel
    · simp [serializeVal] at hfuel
    rw [parseSubfieldsAux_step fuel c v
      (vs.flatMap (serializeVal c) ++ serializeGroups gs) acc hc
      (hcl v (by simp)) (serialized_tail_shape vs c _ hmore)]
    rw [sfAccum_fresh acc c v hlook]
    rw [show (SubVal.single v) = mkVal [v] from rfl]
    rw [parseSubfields_value_loop vs fuel acc c v [] (serializeGroups gs)
      (by simp [serializeVal] at hfuel; simp; omega) hlook hc
      (fun w hw => hcl w (List.mem_cons_of_mem v hw)) hmore]
    simp only [List.cons_append, List.nil_append]
    rw [hmk]
    have hfresh : ∀ p ∈ gs, (acc ++ [(c, val)]).lookup p.1 = none := by
      intro p hp
      apply lookup_eq_none_of_keys
      intro q hq
      rcases List.mem_append.mp hq with hq | hq
      · exact keys_ne_of_lookup_eq_none acc p.1 (hwf p (by simp [hp])).1 q hq
      · have hqe : q = (c, val) := by simpa using hq
        subst hqe
        intro he
        exact hnotin (by
          rw [he]
          exact List.mem_map_of_mem Prod.fst hp)
    rw [ih ((serializeGroups gs).length + 1) (acc ++ [(c, val)]) (by omega)
      (fun p hp => ⟨hfresh p hp, (hwf p (by simp [hp])).2.1, (hwf p (by simp [hp])).2.2⟩)
      hnd']
    simp

/-- `parseSubfields` inverts the subfield serialization on any map with
distinct one-byte codes and well-formed clean values. -/
theorem parseSubfields_serializeGroups (m : SubMap)
    (hwf : ∀ p ∈ m, p.1.toNat < 256 ∧ SubValWF p.2)
    (hnd : (m.map Prod.fst).Nodup) :
    parseSubfields (serializeGroups m) = m := by
  unfold parseSubfields
  have h := parseSubfields_groups_loop m ((serializeGroups m).length + 1) []
    (by omega) (fun p hp => ⟨rfl, (hwf p hp).1, (hwf p hp).2⟩) hnd
  simpa using h

/-! ## C1: safety conditions for the binary round-trip -/

/-- `Object.entries` reordering applied to a parsed field's subfields: the
only change re-encoding then re-decoding makes to field content. -/
def canonField : BinField → BinField
  | .control t d => .control t d
  | .dataF t i1 i2 m => .dataF t i1 i2 (jsEntries m)

/-- Exactly three ASCII characters: a tag that one 12-byte directory entry
carries and a re-parse reads back unchanged. -/
def tagSafe (t : String) : Bool :=
  decide (t.data.length = 3) && t.data.all (fun c => decide (c.toNat ≤ 0x7F))

/-- Boolean form of `cleanVal`. -/
def cleanValB (s : String) : Bool :=
  s.data.all (fun c =>
    decide (c.toNat ≠ SUBFIELD_DELIMITER) && decide (c.toNat ≠ FIELD_TERMINATOR))

/-- Boolean form of `SubValWF`. -/
def subValSafe : SubVal → Bool
  | .single s => cleanValB s
  | .multi l => decide (2 ≤ l.length) && l.all cleanValB

/-- A field whose serialization `rebuildField` re-parses to the same
content (up to `Object.entries` order): a control flag consistent with the
tag, one-byte indicators, distinct one-byte codes with clean well-formed
values, and a serialized length that fits the 4-digit directory slot. -/
def fieldSafe (f : BinField) : Bool :=
  decide ((rebuildField f).length ≤ 9999) &&
    match f with
    | .control t _ => tagSafe t && tagIsControl t
    | .dataF t i1 i2 m =>
      tagSafe t && !tagIsControl t &&
        decide (i1.toNat < 256) && decide (i2.toNat < 256) &&
        decide (((jsEntries m).map Prod.fst).Nodup) &&
        (jsEntries m).all (fun p => decide (p.1.toNat < 256) && subValSafe p.2)

/-- `directoryLength` of the rebuild. -/
def dirLenOf (r : BinRecord) : Nat := r.fields.length * 12 + 1

/-- `baseAddress` of the rebuild. -/
def baseAddressOf (r : BinRecord) : Nat := 24 + dirLenOf r

/-- The concatenated serialized field chunks of the rebuild. -/
def fieldDataOf (r : BinRecord) : List Nat := (r.fields.map rebuildField).flatten

/-- `recordLength` of the rebuild. -/
def recordLengthOf (r : BinRecord) : Nat :=
  baseAddressOf r + (fieldDataOf r).length + 1

/-- A record `rebuildRecord` serializes without a `RangeError` and whose
serialization re-parses: safe fields, a 24-character ASCII leader for the
preserved ranges, and a total length that fits the 5-digit slots. -/
def recordSafe (r : BinRecord) : Bool :=
  r.fields.all fieldSafe &&
    decide (r.leader.data.length = 24) &&
    r.leader.data.all (fun c => decide (c.toNat ≤ 0x7F)) &&
    decide (recordLengthOf r ≤ 99999)

/-- The leader string `rebuildRecord` constructs for a safe record. -/
def leaderStrOf (r : BinRecord) : String :=
  padStartZ (decStr (recordLengthOf r)) 5 ++ jsSubstring r.leader 5 12 ++
    padStartZ (decStr (baseAddressOf r)) 5 ++ jsSubstring r.leader 17 20 ++ "4500"

/-- The serialized bytes of a safe record. -/
def rebuiltBytes (r : BinRecord) : List Nat :=
  encStr (leaderStrOf r) ++
    ((dirEntries r.fields 0).flatten ++ [FIELD_TERMINATOR]) ++
    (fieldDataOf r ++ [RECORD_TERMINATOR])

/-- The encoder distributes over string concatenation. -/
theorem encStr_append (s t : String) : encStr (s ++ t) = encStr s ++ encStr t := by
  show (s.data ++ t.data).flatMap utf8EncodeChar = _
  rw [List.flatMap_append]
  rfl

/-- An all-ASCII string encodes to one byte per character. -/
theorem encStr_ascii_length (s : String) (h : ∀ c ∈ s.data, c.toNat ≤ 0x7F) :
    (encStr s).length = s.data.length := by
  show (encChars s.data).length = _
  rw [encChars_ascii s.data h, List.length_map]

/-- Every serialized field ends with the field terminator, so is nonempty. -/
theorem rebuildField_length_pos (f : BinField) : 1 ≤ (rebuildField f).length := by
  cases f <;> simp [rebuildField]

/-- Structure of a directory entry for a safe tag and in-range numbers:
three all-ASCII segments of lengths 3, 4 and 5. -/
theorem dirEntry_eq (t : String) (len off : Nat) (ht : tagSafe t = true)
    (hlen : len ≤ 9999) (hoff : off ≤ 99999) :
    dirEntry t len off =
      encStr t ++ (encStr (padStartZ (decStr len) 4) ++
        encStr (padStartZ (decStr off) 5)) ∧
      (encStr t).length = 3 ∧
      (encStr (padStartZ (decStr len) 4)).length = 4 ∧
      (encStr (padStartZ (decStr off) 5)).length = 5 := by
  have ht2 : t.data.length = 3 ∧ ∀ c ∈ t.data, c.toNat ≤ 0x7F := by
    simpa [tagSafe] using ht
  have hpad : padEndSp t 3 = t := by
    unfold padEndSp
    rw [ht2.1]
    show (⟨t.data ++ List.replicate 0 ' '⟩ : String) = t
    rw [List.replicate_zero, List.append_nil]
  refine ⟨?_, ?_, ?_, ?_⟩
  · show encStr (padEndSp t 3 ++ padStartZ (decStr len) 4 ++ padStartZ (decStr off) 5) = _
    rw [hpad]
    rw [encStr_append, encStr_append, List.append_assoc]
  · rw [encStr_ascii_length t ht2.2, ht2.1]
  · rw [encStr_ascii_length _
      (fun c hc => isDecDigit_ascii c (padStartZ_decStr_digits len 4 c hc))]
    exact padStartZ_decStr_length len 4 (by omega) (by omega)
  · rw [encStr_ascii_length _
      (fun c hc => isDecDigit_ascii c (padStartZ_decStr_digits off 5 c hc))]
    exact padStartZ_decStr_length off 5 (by omega) (by omega)

/-- Writing entries of exact length 12 at stride 12 into zero padding
concatenates them in order. -/
theorem writeEntries_exact :
    ∀ (es : List (List Nat)) (X : List Nat) (m : Nat),
      (∀ e ∈ es, e.length = 12) →
      writeEntries es (X ++ List.replicate (12 * es.length + m) 0) X.length =
        some (X ++ es.flatten ++ List.replicate m 0) := by
  intro es
  induction es with
  | nil =>
    intro X m _
    show some (X ++ List.replicate (12 * 0 + m) 0) =
      some (X ++ [].flatten ++ List.replicate m 0)
    rw [show 12 * 0 + m = m by omega]
    simp
  | cons e es ih =>
    intro X m hl
    have he12 : e.length = 12 := hl e (by simp)
    show (match tarrSet (X ++ List.replicate (12 * (e :: es).length + m) 0) e X.length with
      | none => none
      | some arr2 => writeEntries es arr2 (X.length + 12)) =
      some (X ++ (e :: es).flatten ++ List.replicate m 0)
    rw [tarrSet_append X (12 * (e :: es).length + m) e
      (by simp only [List.length_cons]; omega)]
    show writeEntries es (X ++ e ++ List.replicate (12 * (e :: es).length + m - e.length) 0)
      (X.length + 12) = some (X ++ (e :: es).flatten ++ List.replicate m 0)
    have harr : X ++ e ++ List.replicate (12 * (e :: es).length + m - e.length) 0 =
        (X ++ e) ++ List.replicate (12 * es.length + m) 0 := by
      rw [he12, show 12 * (e :: es).length + m - 12 = 12 * es.length + m from by
        simp only [List.length_cons]; omega]
    rw [harr, show X.length + 12 = (X ++ e).length from by rw [List.length_append, he12]]
    rw [ih (X ++ e) m (fun x hx => hl x (by simp [hx]))]
    congr 1
    simp [List.flatten_cons, List.append_assoc]

/-- Reading a `slice` window that lies inside the middle component of a
decomposed buffer. -/
theorem jsSlice_window (P Q R : List Nat) (m : Nat) (hm : m ≤ Q.length)
    (a b : Option Int) (ha : a = some ((P.length : Int)))
    (hb : b = some ((P.length : Int) + (m : Int))) :
    jsSlice (P ++ (Q ++ R)) a b = Q.take m := by
  subst ha hb
  unfold jsSlice jsIdx
  simp only []
  rw [if_neg (show ¬ ((P.length : Int) + (m : Int) < 0) from by omega),
    if_neg (show ¬ ((P.length : Int) < 0) from by omega)]
  have hL : (P ++ (Q ++ R)).length = P.length + Q.length + R.length := by
    simp [Nat.add_assoc]
  rw [show (min ((P.length : Int) + (m : Int)) (((P ++ (Q ++ R)).length : Nat) : Int)).toNat
      = P.length + m from by rw [hL]; push_cast; omega,
    show (min ((P.length : Int)) (((P ++ (Q ++ R)).length : Nat) : Int)).toNat
      = P.length from by rw [hL]; push_cast; omega]
  rw [List.drop_take, Nat.add_sub_cancel_left, List.drop_left,
    List.take_append_of_le_length hm]

/-- String concatenation at the character-list level. -/
theorem string_data_append (s t : String) : (s ++ t).data = s.data ++ t.data := rfl

/-- A safe field's serialized length fits the directory slot. -/
theorem fieldSafe_len (f : BinField) (h : fieldSafe f = true) :
    (rebuildField f).length ≤ 9999 := by
  have := (Bool.and_eq_true _ _).mp h
  exact of_decide_eq_true this.1

/-- A safe field's tag is three ASCII characters. -/
theorem fieldSafe_tag (f : BinField) (h : fieldSafe f = true) :
    tagSafe f.tag = true := by
  have h2 := ((Bool.and_eq_true _ _).mp h).2
  cases f with
  | control t d =>
    exact ((Bool.and_eq_true _ _).mp h2).1
  | dataF t i1 i2 m =>
    exact ((Bool.and_eq_true _ _).mp
      ((Bool.and_eq_true _ _).mp
        ((Bool.and_eq_true _ _).mp
          ((Bool.and_eq_true _ _).mp
            ((Bool.and_eq_true _ _).mp h2).1).1).1).1).1

/-- The directory has one entry per field. -/
theorem dirEntries_length : ∀ (fs : List BinField) (cur : Nat),
    (dirEntries fs cur).length = fs.length := by
  intro fs
  induction fs with
  | nil => intro cur; rfl
  | cons f fs ih =>
    intro cur
    show (dirEntry f.tag (rebuildField f).length cur ::
      dirEntries fs (cur + (rebuildField f).length)).length = fs.length + 1
    rw [List.length_cons, ih]

/-- Every directory entry of a safe in-range field list is 12 bytes. -/
theorem dirEntries_all12 : ∀ (fs : List BinField) (cur : Nat),
    (∀ f ∈ fs, fieldSafe f = true) →
    cur + ((fs.map rebuildField).flatten).length ≤ 99999 →
    ∀ e ∈ dirEntries fs cur, e.length = 12 := by
  intro fs
  induction fs with
  | nil => intro cur _ _ e he; simp [dirEntries] at he
  | cons f fs ih =>
    intro cur hfs hcur e he
    have hflat : ((f :: fs).map rebuildField).flatten =
        rebuildField f ++ (fs.map rebuildField).flatten := by
      simp [List.flatten_cons]
    rw [hflat, List.length_append] at hcur
    rcases List.mem_cons.mp he with he | he
    · subst he
      obtain ⟨heq, h3, h4, h5⟩ := dirEntry_eq f.tag (rebuildField f).length cur
        (fieldSafe_tag f (hfs f (by simp))) (fieldSafe_len f (hfs f (by simp)))
        (by omega)
      rw [heq]
      rw [List.length_append, List.length_append, h3, h4, h5]
    · exact ih (cur + (rebuildField f).length)
        (fun g hg => hfs g (by simp [hg])) (by omega) e he

/-- Flattening lists of length 12 each. -/
theorem flatten_all12 : ∀ (es : List (List Nat)), (∀ e ∈ es, e.length = 12) →
    es.flatten.length = 12 * es.length := by
  intro es
  induction es with
  | nil => intro _; rfl
  | cons e es ih =>
    intro h
    rw [List.flatten_cons, List.length_append, h e (by simp),
      ih (fun x hx => h x (by simp [hx])), List.length_cons]
    ring

/-- The rebuilt leader of a safe record has exactly 24 characters. -/
theorem leaderStrOf_length (r : BinRecord) (hld : r.leader.data.length = 24)
    (hrl : recordLengthOf r ≤ 99999) :
    (leaderStrOf r).data.length = 24 := by
  have hb : baseAddressOf r ≤ recordLengthOf r := by
    unfold recordLengthOf
    omega
  have hA : (padStartZ (decStr (recordLengthOf r)) 5).data.length = 5 :=
    padStartZ_decStr_length _ 5 (by omega) (by norm_num; omega)
  have hC : (padStartZ (decStr (baseAddressOf r)) 5).data.length = 5 :=
    padStartZ_decStr_length _ 5 (by omega) (by norm_num; omega)
  have hB : (jsSubstring r.leader 5 12).data.length = 7 := by
    show ((r.leader.data.drop 5).take (12 - 5)).length = 7
    rw [List.length_take, List.length_drop, hld]
    decide
  have hD : (jsSubstring r.leader 17 20).data.length = 3 := by
    show ((r.leader.data.drop 17).take (20 - 17)).length = 3
    rw [List.length_take, List.length_drop, hld]
    decide
  have hE : ("4500" : String).data.length = 4 := rfl
  simp [leaderStrOf, string_data_append, List.length_append, hA, hB, hC, hD, hE]

/-- The rebuilt leader of a record with an ASCII leader is ASCII. -/
theorem leaderStrOf_ascii (r : BinRecord)
    (hla : ∀ c ∈ r.leader.data, c.toNat ≤ 0x7F) :
    ∀ c ∈ (leaderStrOf r).data, c.toNat ≤ 0x7F := by
  intro c hc
  have h45 : ∀ c ∈ ("4500" : String).data, c.toNat ≤ 0x7F := by decide
  have hdig5 : ∀ (n : Nat) (c : Char),
      c ∈ (padStartZ (decStr n) 5).data → c.toNat ≤ 0x7F :=
    fun n c h => isDecDigit_ascii c (padStartZ_decStr_digits n 5 c h)
  simp only [leaderStrOf, string_data_append, List.mem_append] at hc
  rcases hc with ((((h | h) | h) | h) | h)
  · exact hdig5 _ c h
  · exact hla c (List.drop_subset 5 r.leader.data (List.take_subset _ _ h))
  · exact hdig5 _ c h
  · exact hla c (List.drop_subset 17 r.leader.data (List.take_subset _ _ h))
  · exact h45 c h

/-- On a safe record `rebuildRecord` throws no `RangeError` and produces
exactly leader, terminated directory, field data and record terminator. -/
theorem rebuildRecord_eq (r : BinRecord) (h : recordSafe r = true) :
    rebuildRecord r = some (rebuiltBytes r) := by
  obtain ⟨hfs, hld, hla, hrl⟩ : (∀ f ∈ r.fields, fieldSafe f = true) ∧
      r.leader.data.length = 24 ∧ (∀ c ∈ r.leader.data, c.toNat ≤ 0x7F) ∧
      recordLengthOf r ≤ 99999 := by
    simpa [recordSafe, List.all_eq_true, and_assoc] using h
  have hrlq : recordLengthOf r =
      24 + (r.fields.length * 12 + 1) +
        ((r.fields.map rebuildField).flatten).length + 1 := by
    unfold recordLengthOf baseAddressOf dirLenOf fieldDataOf
    omega
  have hall12 := dirEntries_all12 r.fields 0 hfs (by omega)
  have hflat12 : ((dirEntries r.fields 0).flatten).length = 12 * r.fields.length :=
    (flatten_all12 _ hall12).trans (by rw [dirEntries_length])
  have hencl : (encStr (leaderStrOf r)).length = 24 := by
    rw [encStr_ascii_length _ (leaderStrOf_ascii r hla)]
    exact leaderStrOf_length r hld hrl
  have hwe : writeEntries (dirEntries r.fields 0)
      (List.replicate (r.fields.length * 12 + 1) 0) 0 =
      some ((dirEntries r.fields 0).flatten ++ List.replicate 1 0) := by
    have hw := writeEntries_exact (dirEntries r.fields 0) [] 1 hall12
    rw [dirEntries_length] at hw
    simpa [Nat.mul_comm] using hw
  have hdir : ((dirEntries r.fields 0).flatten ++ List.replicate 1 0).set
      (r.fields.length * 12) FIELD_TERMINATOR =
      (dirEntries r.fields 0).flatten ++ [FIELD_TERMINATOR] := by
    rw [show List.replicate 1 (0:Nat) = [0] from rfl,
      show r.fields.length * 12 = ((dirEntries r.fields 0).flatten).length from by
        rw [hflat12]; ring]
    exact set_last_append _ 0 FIELD_TERMINATOR
  have hlep : jsSubstring (padEndSp (leaderStrOf r) 24) 0 24 = leaderStrOf r := by
    have hlen := leaderStrOf_length r hld hrl
    have hpe : padEndSp (leaderStrOf r) 24 = leaderStrOf r := by
      unfold padEndSp
      rw [hlen]
      simp
    rw [hpe]
    unfold jsSubstring
    simp [List.take_of_length_le (le_of_eq hlen)]
  have hc1 : tarrSet (List.replicate (recordLengthOf r) 0) (encStr (leaderStrOf r)) 0 =
      some (encStr (leaderStrOf r) ++ List.replicate (recordLengthOf r - 24) 0) := by
    have hw := tarrSet_append [] (recordLengthOf r) (encStr (leaderStrOf r))
      (by rw [hencl]; omega)
    rw [hencl] at hw
    simpa using hw
  have hdlen : ((dirEntries r.fields 0).flatten ++ [FIELD_TERMINATOR]).length =
      r.fields.length * 12 + 1 := by
    rw [List.length_append, hflat12]
    simp
    omega
  have hc2 : tarrSet (encStr (leaderStrOf r) ++ List.replicate (recordLengthOf r - 24) 0)
      ((dirEntries r.fields 0).flatten ++ [FIELD_TERMINATOR]) 24 =
      some ((encStr (leaderStrOf r) ++ ((dirEntries r.fields 0).flatten ++ [FIELD_TERMINATOR])) ++
        List.replicate (((r.fields.map rebuildField).flatten).length + 1) 0) := by
    have hw := tarrSet_append (encStr (leaderStrOf r)) (recordLengthOf r - 24)
      ((dirEntries r.fields 0).flatten ++ [FIELD_TERMINATOR]) (by rw [hdlen]; omega)
    rw [hencl, hdlen] at hw
    rw [show recordLengthOf r - 24 - (r.fields.length * 12 + 1) =
      ((r.fields.map rebuildField).flatten).length + 1 from by omega] at hw
    exact hw
  have hXlen : (encStr (leaderStrOf r) ++
      ((dirEntries r.fields 0).flatten ++ [FIELD_TERMINATOR])).length =
      24 + (r.fields.length * 12 + 1) := by
    rw [List.length_append, hencl, hdlen]
  have hc3 : tarrSet ((encStr (leaderStrOf r) ++
        ((dirEntries r.fields 0).flatten ++ [FIELD_TERMINATOR])) ++
        List.replicate (((r.fields.map rebuildField).flatten).length + 1) 0)
      ((r.fields.map rebuildField).flatten) (24 + (r.fields.length * 12 + 1)) =
      some (((encStr (leaderStrOf r) ++
        ((dirEntries r.fields 0).flatten ++ [FIELD_TERMINATOR])) ++
        ((r.fields.map rebuildField).flatten ++ List.replicate 1 0))) := by
    have hw := tarrSet_append (encStr (leaderStrOf r) ++
        ((dirEntries r.fields 0).flatten ++ [FIELD_TERMINATOR]))
      (((r.fields.map rebuildField).flatten).length + 1)
      ((r.fields.map rebuildField).flatten) (by omega)
    rw [hXlen] at hw
    rw [show ((r.fields.map rebuildField).flatten).length + 1 -
      ((r.fields.map rebuildField).flatten).length = 1 from by omega] at hw
    rw [List.append_assoc ((encStr (leaderStrOf r) ++
      ((dirEntries r.fields 0).flatten ++ [FIELD_TERMINATOR])))] at hw
    exact hw
  have hset : (((encStr (leaderStrOf r) ++
      ((dirEntries r.fields 0).flatten ++ [FIELD_TERMINATOR])) ++
      ((r.fields.map rebuildField).flatten ++ List.replicate 1 0))).set
      (recordLengthOf r - 1) RECORD_TERMINATOR = rebuiltBytes r := by
    have hplen : ((encStr (leaderStrOf r) ++
        ((dirEntries r.fields 0).flatten ++ [FIELD_TERMINATOR])) ++
        (r.fields.map rebuildField).flatten).length = recordLengthOf r - 1 := by
      rw [List.length_append, hXlen]
      omega
    rw [show ((r.fields.map rebuildField).flatten ++ List.replicate 1 0) =
      ((r.fields.map rebuildField).flatten ++ [0]) from rfl]
    rw [← List.append_assoc, ← hplen, set_last_append _ 0 RECORD_TERMINATOR]
    unfold rebuiltBytes fieldDataOf
    simp [List.append_assoc]
  unfold rebuildRecord
  dsimp only
  rw [hwe]
  simp only []
  rw [hdir]
  rw [← hrlq]
  rw [show (24 : Nat) + (r.fields.length * 12 + 1) = baseAddressOf r from by
    unfold baseAddressOf dirLenOf; rfl]
  rw [show (padStartZ (decStr (recordLengthOf r)) 5 ++ jsSubstring r.leader 5 12 ++
    padStartZ (decStr (baseAddressOf r)) 5 ++ jsSubstring r.leader 17 20 ++ "4500") =
    leaderStrOf r from rfl]
  rw [hlep, hc1]
  simp only []
  rw [show (24 : Nat) + (r.fields.length * 12 + 1) = baseAddressOf r from by
    unfold baseAddressOf dirLenOf; rfl] at hc3
  rw [hc2]
  simp only []
  rw [hc3]
  simp only []
  rw [hset]

/-- `rebuiltBytes` has exactly the recomputed record length. -/
theorem rebuiltBytes_length (r : BinRecord) (h : recordSafe r = true) :
    (rebuiltBytes r).length = recordLengthOf r := by
  obtain ⟨hfs, hld, hla, hrl⟩ : (∀ f ∈ r.fields, fieldSafe f = true) ∧
      r.leader.data.length = 24 ∧ (∀ c ∈ r.leader.data, c.toNat ≤ 0x7F) ∧
      recordLengthOf r ≤ 99999 := by
    simpa [recordSafe, List.all_eq_true, and_assoc] using h
  have hrlq : recordLengthOf r =
      24 + (r.fields.length * 12 + 1) +
        ((r.fields.map rebuildField).flatten).length + 1 := by
    unfold recordLengthOf baseAddressOf dirLenOf fieldDataOf
    omega
  have hall12 := dirEntries_all12 r.fields 0 hfs (by omega)
  have hflat12 : ((dirEntries r.fields 0).flatten).length = 12 * r.fields.length :=
    (flatten_all12 _ hall12).trans (by rw [dirEntries_length])
  have hencl : (encStr (leaderStrOf r)).length = 24 := by
    rw [encStr_ascii_length _ (leaderStrOf_ascii r hla)]
    exact leaderStrOf_length r hld hrl
  unfold rebuiltBytes fieldDataOf
  simp only [List.length_append, hencl, hflat12, List.length_cons, List.length_nil]
  omega

/-- The initial window of a decomposed buffer. -/
theorem read_at0 (P Q R : List Nat) (m : Nat) :
    ((P ++ (Q ++ R)).drop P.length).take m = (Q ++ R).take m := by
  rw [List.drop_left]

/-- NaN-free JS addition. -/
theorem jadd_some (a b : Int) : jadd (some a) (some b) = some (a + b) := rfl

/-- Clean values, Bool to Prop. -/
theorem cleanValB_wf (s : String) (h : cleanValB s = true) : cleanVal s := by
  intro c hc
  have h2 := List.all_eq_true.mp h c hc
  simpa using h2

/-- Well-formed subfield values, Bool to Prop. -/
theorem subValSafe_wf (v : SubVal) (h : subValSafe v = true) : SubValWF v := by
  cases v with
  | single s => exact cleanValB_wf s h
  | multi l =>
    have h2 : 2 ≤ l.length ∧ ∀ s ∈ l, cleanValB s = true := by
      simpa [subValSafe, List.all_eq_true] using h
    exact ⟨h2.1, fun s hs => cleanValB_wf s (h2.2 s hs)⟩

/-- The directory loop of `parseRecord`, run over the rebuilt serialization
of a safe field list, reproduces the fields with `Object.entries`-reordered
subfields.  `Pd`/`Rd` and `Pf`/`Sf` decompose the same buffer around the
remaining directory entries and the remaining serialized field chunks. -/
theorem parseDirLoop_spec :
    ∀ (fs : List BinField) (data : List Nat) (start n k cur : Nat)
      (Pd Rd Pf Sf : List Nat) (fuel : Nat),
      k + fs.length = n →
      (∀ f ∈ fs, fieldSafe f = true) →
      data = Pd ++ ((dirEntries fs cur).flatten ++ Rd) →
      data = Pf ++ (((fs.map rebuildField).flatten : List Nat) ++ Sf) →
      Pd.length = start + 24 + 12 * k →
      Pf.length = start + (25 + 12 * n) + cur →
      cur + ((fs.map rebuildField).flatten).length ≤ 99999 →
      fs.length ≤ fuel →
      parseDirLoop data start ((25 + 12 * n : Nat) : Int) fuel (start + 24 + 12 * k) =
        fs.map canonField := by
  intro fs
  induction fs with
  | nil =>
    intro data start n k cur Pd Rd Pf Sf fuel hk _ _ _ _ _ _ _
    have hkn : k = n := by simpa using hk
    subst hkn
    rcases fuel with _ | fuel
    · rfl
    · conv_lhs => rw [parseDirLoop.eq_def]
      simp only []
      rw [if_neg (show ¬ (((start + 24 + 12 * k : Nat) : Int) <
        (start : Int) + ((25 + 12 * k : Nat) : Int) - 1) from by push_cast; omega)]
      rfl
  | cons f fs ih =>
    intro data start n k cur Pd Rd Pf Sf fuel hk hfs hd hf hPd hPf hbound hfuel
    rcases fuel with _ | fuel
    · simp at hfuel
    have hkn : k < n := by simp at hk; omega
    have hsf : fieldSafe f = true := hfs f (by simp)
    have htag : tagSafe f.tag = true := fieldSafe_tag f hsf
    have hlen9999 : (rebuildField f).length ≤ 9999 := fieldSafe_len f hsf
    have hlen1 : 1 ≤ (rebuildField f).length := rebuildField_length_pos f
    have hflcons : (((f :: fs).map rebuildField).flatten : List Nat) =
        rebuildField f ++ (fs.map rebuildField).flatten := by
      simp
    have hbound2 : cur + ((rebuildField f).length +
        ((fs.map rebuildField).flatten).length) ≤ 99999 := by
      rw [hflcons, List.length_append] at hbound
      omega
    obtain ⟨hde, hl3, hl4, hl5⟩ := dirEntry_eq f.tag (rebuildField f).length cur
      htag hlen9999 (by omega)
    have he12 : (dirEntry f.tag (rebuildField f).length cur).length = 12 := by
      rw [hde, List.length_append, List.length_append, hl3, hl4, hl5]
    have hdecons : ((dirEntries (f :: fs) cur).flatten : List Nat) =
        dirEntry f.tag (rebuildField f).length cur ++
          (dirEntries fs (cur + (rebuildField f).length)).flatten := by
      show (dirEntry f.tag (rebuildField f).length cur ::
        dirEntries fs (cur + (rebuildField f).length)).flatten = _
      rw [List.flatten_cons]
    have hd1 : data = Pd ++ (dirEntry f.tag (rebuildField f).length cur ++
        ((dirEntries fs (cur + (rebuildField f).length)).flatten ++ Rd)) := by
      rw [hd, hdecons]
      simp [List.append_assoc]
    have hf1 : data = Pf ++ (rebuildField f ++
        (((fs.map rebuildField).flatten : List Nat) ++ Sf)) := by
      rw [hf, hflcons]
      simp [List.append_assoc]
    have htagbytes : (data.drop (start + 24 + 12 * k)).take 3 = encStr f.tag := by
      rw [hd1, ← hPd, read_at0, hde,
        List.take_append_of_le_length (show (3:Nat) ≤ (encStr f.tag ++
          (encStr (padStartZ (decStr (rebuildField f).length) 4) ++
            encStr (padStartZ (decStr cur) 5))).length from by
          rw [List.length_append, List.length_append, hl3, hl4, hl5]; omega),
        List.take_append_of_le_length (show (3:Nat) ≤ (encStr f.tag).length from by
          rw [hl3]),
        List.take_of_length_le (le_of_eq hl3)]
    have hlenbytes : (data.drop (start + 24 + 12 * k + 3)).take 4 =
        encStr (padStartZ (decStr (rebuildField f).length) 4) := by
      rw [hd1, show start + 24 + 12 * k + 3 = Pd.length + 3 from by omega,
        read_at Pd _ _ 3 4 (by rw [he12]; omega), hde,
        show (3:Nat) = (encStr f.tag).length from hl3.symm, List.drop_left,
        List.take_append_of_le_length (le_of_eq hl4.symm),
        List.take_of_length_le (le_of_eq hl4)]
    have hoffbytes : (data.drop (start + 24 + 12 * k + 7)).take 5 =
        encStr (padStartZ (decStr cur) 5) := by
      rw [hd1, show start + 24 + 12 * k + 7 = Pd.length + 7 from by omega,
        read_at Pd _ _ 7 5 (by rw [he12]), hde, ← List.append_assoc,
        show (7:Nat) = (encStr f.tag ++
          encStr (padStartZ (decStr (rebuildField f).length) 4)).length from by
          rw [List.length_append, hl3, hl4],
        List.drop_left, List.take_of_length_le (le_of_eq hl5)]
    have htagdec : jsDecode ((data.drop (start + 24 + 12 * k)).take 3) = f.tag := by
      rw [htagbytes, jsDecode_encStr]
    have hflen : jsParseInt (jsDecode ((data.drop (start + 24 + 12 * k + 3)).take 4)) =
        some (((rebuildField f).length : Nat) : Int) := by
      rw [hlenbytes, jsDecode_encStr, jsParseInt_padStartZ_decStr]
    have hfoff : jsParseInt (jsDecode ((data.drop (start + 24 + 12 * k + 7)).take 5)) =
        some ((cur : Nat) : Int) := by
      rw [hoffbytes, jsDecode_encStr, jsParseInt_padStartZ_decStr]
    obtain ⟨ht3, _⟩ : f.tag.data.length = 3 ∧ ∀ c ∈ f.tag.data, c.toNat ≤ 0x7F := by
      simpa [tagSafe] using htag
    have hne : ¬ (f.tag = "\x1E" ∨ f.tag = "") := by
      rintro (h | h) <;> rw [h] at ht3 <;> exact absurd ht3 (by decide)
    have hslice : jsSlice data
        (some ((start : Int) + ((25 + 12 * n : Nat) : Int) + ((cur : Nat) : Int)))
        (some ((start : Int) + ((25 + 12 * n : Nat) : Int) + ((cur : Nat) : Int) +
          ((((rebuildField f).length : Nat) : Int) + -1))) =
        (rebuildField f).take ((rebuildField f).length - 1) := by
      rw [hf1]
      exact jsSlice_window Pf (rebuildField f) _ ((rebuildField f).length - 1)
        (by omega) _ _
        (by congr 1; rw [hPf]; push_cast; ring)
        (by congr 1; rw [hPf]; omega)
    conv_lhs => rw [parseDirLoop.eq_def]
    simp only []
    rw [if_pos (show (((start + 24 + 12 * k : Nat) : Int) <
      (start : Int) + ((25 + 12 * n : Nat) : Int) - 1) from by push_cast; omega)]
    rw [htagdec, if_neg hne, hflen, hfoff]
    simp only [jadd_some]
    rw [hslice]
    rw [show start + 24 + 12 * k + 12 = start + 24 + 12 * (k + 1) from by ring]
    rw [List.map_cons]
    congr 1
    · cases f with
      | control t d =>
        have hctrl : tagIsControl t = true := by
          have h2 := ((Bool.and_eq_true _ _).mp hsf).2
          exact ((Bool.and_eq_true _ _).mp h2).2
        simp only [BinField.tag]
        rw [if_pos hctrl]
        rw [show rebuildField (BinField.control t d) =
          encStr d ++ [FIELD_TERMINATOR] from rfl]
        rw [show (encStr d ++ [FIELD_TERMINATOR]).length - 1 = (encStr d).length from by
          simp]
        rw [List.take_left, jsDecode_encStr]
        rfl
      | dataF t i1 i2 m =>
        obtain ⟨hl9, htg, hnc, h1b, h2b, hnd, hall⟩ :
            (rebuildField (BinField.dataF t i1 i2 m)).length ≤ 9999 ∧
            tagSafe t = true ∧ tagIsControl t = false ∧
            i1.toNat < 256 ∧ i2.toNat < 256 ∧
            ((jsEntries m).map Prod.fst).Nodup ∧
            ∀ p ∈ jsEntries m, p.1.toNat < 256 ∧ subValSafe p.2 = true := by
          simpa [fieldSafe, List.all_eq_true, and_assoc] using hsf
        simp only [BinField.tag]
        rw [if_neg (by simp [hnc])]
        rw [rebuildField_dataF]
        rw [show ([jsCharCodeByte i1, jsCharCodeByte i2] ++
            serializeGroups (jsEntries m) ++ [FIELD_TERMINATOR]).length - 1 =
          ([jsCharCodeByte i1, jsCharCodeByte i2] ++
            serializeGroups (jsEntries m)).length from by simp]
        rw [List.take_left]
        rw [show (([jsCharCodeByte i1, jsCharCodeByte i2] ++
          serializeGroups (jsEntries m)).getD 0 0) = jsCharCodeByte i1 from rfl]
        rw [show (([jsCharCodeByte i1, jsCharCodeByte i2] ++
          serializeGroups (jsEntries m)).getD 1 0) = jsCharCodeByte i2 from rfl]
        rw [show (([jsCharCodeByte i1, jsCharCodeByte i2] ++
          serializeGroups (jsEntries m)).drop 2) = serializeGroups (jsEntries m) from rfl]
        rw [charFromCode_jsCharCodeByte i1 h1b, charFromCode_jsCharCodeByte i2 h2b]
        rw [parseSubfields_serializeGroups (jsEntries m)
          (fun p hp => ⟨(hall p hp).1, subValSafe_wf p.2 (hall p hp).2⟩) hnd]
        rfl
    · rw [show (25 + 12 * n : Nat) = 25 + 12 * n from rfl]
      exact ih data start n (k + 1) (cur + (rebuildField f).length)
        (Pd ++ dirEntry f.tag (rebuildField f).length cur) Rd
        (Pf ++ rebuildField f) Sf fuel
        (by simp at hk ⊢; omega)
        (fun g hg => hfs g (by simp [hg]))
        (by rw [hd1]; simp [List.append_assoc])
        (by rw [hf1]; simp [List.append_assoc])
        (by rw [List.length_append, hPd, he12]; ring)
        (by rw [List.length_append, hPf]; ring)
        (by omega)
        (by simpa using hfuel)

/-- Unpacked form of `recordSafe`. -/
theorem recordSafe_unpack (r : BinRecord) (h : recordSafe r = true) :
    (∀ f ∈ r.fields, fieldSafe f = true) ∧ r.leader.data.length = 24 ∧
    (∀ c ∈ r.leader.data, c.toNat ≤ 0x7F) ∧ recordLengthOf r ≤ 99999 := by
  simpa [recordSafe, List.all_eq_true, and_assoc] using h

/-- Lists to strings. -/
theorem string_mk_eq (l : List Char) (s : String) (h : l = s.data) :
    (⟨l⟩ : String) = s := by
  rw [h]

/-- Dropping a prefix of known length. -/
theorem drop_prefix_len {A : Type} (X Y : List A) (n : Nat) (h : X.length = n) :
    (X ++ Y).drop n = Y := by
  subst h
  exact List.drop_left X Y

/-- `parseRecord` at the start of a rebuilt safe record, embedded anywhere
in a larger buffer, recovers the record with the rebuilt leader and
`Object.entries`-reordered subfields. -/
theorem parseRecord_rebuilt (r : BinRecord) (P Q : List Nat)
    (h : recordSafe r = true) :
    parseRecord (P ++ (rebuiltBytes r ++ Q)) P.length =
      some ⟨P.length, P.length + recordLengthOf r, leaderStrOf r,
        r.fields.map canonField⟩ := by
  obtain ⟨hfs, hld, hla, hrl⟩ := recordSafe_unpack r h
  have hrlq : recordLengthOf r =
      24 + (r.fields.length * 12 + 1) +
        ((r.fields.map rebuildField).flatten).length + 1 := by
    unfold recordLengthOf baseAddressOf dirLenOf fieldDataOf
    omega
  have hall12 := dirEntries_all12 r.fields 0 hfs (by omega)
  have hflat12 : ((dirEntries r.fields 0).flatten).length = 12 * r.fields.length :=
    (flatten_all12 _ hall12).trans (by rw [dirEntries_length])
  have hencl : (encStr (leaderStrOf r)).length = 24 := by
    rw [encStr_ascii_length _ (leaderStrOf_ascii r hla)]
    exact leaderStrOf_length r hld hrl
  have hA : (padStartZ (decStr (recordLengthOf r)) 5).data.length = 5 :=
    padStartZ_decStr_length _ 5 (by omega) (by norm_num; omega)
  have hC : (padStartZ (decStr (baseAddressOf r)) 5).data.length = 5 :=
    padStartZ_decStr_length _ 5 (by omega) (by
      norm_num
      unfold recordLengthOf at hrl
      omega)
  have hB : (jsSubstring r.leader 5 12).data.length = 7 := by
    show ((r.leader.data.drop 5).take (12 - 5)).length = 7
    rw [List.length_take, List.length_drop, hld]
    decide
  have hdata : (leaderStrOf r).data =
      (padStartZ (decStr (recordLengthOf r)) 5).data ++
        ((jsSubstring r.leader 5 12).data ++
          ((padStartZ (decStr (baseAddressOf r)) 5).data ++
            ((jsSubstring r.leader 17 20).data ++ ("4500" : String).data))) := by
    simp [leaderStrOf, string_data_append, List.append_assoc]
  have hs05 : jsSubstring (leaderStrOf r) 0 5 =
      padStartZ (decStr (recordLengthOf r)) 5 := by
    show (⟨((leaderStrOf r).data.drop 0).take (5 - 0)⟩ : String) = _
    apply string_mk_eq
    rw [hdata, List.drop_zero,
      List.take_append_of_le_length (by rw [hA]),
      List.take_of_length_le (by rw [hA])]
  have hs1217 : jsSubstring (leaderStrOf r) 12 17 =
      padStartZ (decStr (baseAddressOf r)) 5 := by
    show (⟨((leaderStrOf r).data.drop 12).take (17 - 12)⟩ : String) = _
    apply string_mk_eq
    rw [hdata, ← List.append_assoc,
      drop_prefix_len ((padStartZ (decStr (recordLengthOf r)) 5).data ++
        (jsSubstring r.leader 5 12).data) _ 12 (by rw [List.length_append, hA, hB]),
      List.take_append_of_le_length (by rw [hC]),
      List.take_of_length_le (by rw [hC])]
  have hdata1 : P ++ (rebuiltBytes r ++ Q) =
      P ++ (encStr (leaderStrOf r) ++
        (((dirEntries r.fields 0).flatten ++ [FIELD_TERMINATOR]) ++
          ((fieldDataOf r ++ [RECORD_TERMINATOR]) ++ Q))) := by
    simp [rebuiltBytes, List.append_assoc]
  have hleader : jsDecode (((P ++ (rebuiltBytes r ++ Q)).drop P.length).take 24) =
      leaderStrOf r := by
    rw [hdata1, read_at0,
      List.take_append_of_le_length (by rw [hencl]),
      List.take_of_length_le (by rw [hencl]), jsDecode_encStr]
  unfold parseRecord
  dsimp only
  rw [hleader, hs05, jsParseInt_padStartZ_decStr]
  simp only []
  rw [if_neg (show ¬ (((recordLengthOf r : Nat) : Int) ≤ 0) from by omega)]
  rw [hs1217, jsParseInt_padStartZ_decStr]
  simp only []
  rw [Int.toNat_natCast, Int.toNat_natCast]
  rw [show baseAddressOf r = 25 + 12 * r.fields.length from by
    unfold baseAddressOf dirLenOf; ring]
  rw [show P.length + 24 = P.length + 24 + 12 * 0 from by ring]
  rw [parseDirLoop_spec r.fields (P ++ (rebuiltBytes r ++ Q)) P.length
    r.fields.length 0 0
    (P ++ encStr (leaderStrOf r))
    ([FIELD_TERMINATOR] ++ ((fieldDataOf r ++ [RECORD_TERMINATOR]) ++ Q))
    (P ++ (encStr (leaderStrOf r) ++
      ((dirEntries r.fields 0).flatten ++ [FIELD_TERMINATOR])))
    ([RECORD_TERMINATOR] ++ Q)
    (25 + 12 * r.fields.length + 1)
    (by omega)
    hfs
    (by simp [rebuiltBytes, List.append_assoc])
    (by simp [rebuiltBytes, fieldDataOf, List.append_assoc])
    (by rw [List.length_append, hencl])
    (by simp only [List.length_append, hencl, hflat12, List.length_cons,
      List.length_nil]; ring)
    (by omega)
    (by omega)]

/-- `mapM` over `Option` on a list where the function always succeeds. -/
theorem mapM_opt {A B : Type} (f : A → Option B) (g : A → B) :
    ∀ (l : List A), (∀ x ∈ l, f x = some (g x)) → l.mapM f = some (l.map g) := by
  intro l
  induction l with
  | nil => intro _; rw [List.mapM_nil]; rfl
  | cons x l ih =>
    intro h
    rw [List.mapM_cons, h x (by simp), ih (fun y hy => h y (by simp [hy]))]
    rfl

/-- Any rebuilt record length is at least 26 bytes. -/
theorem recordLengthOf_ge (r : BinRecord) : 26 ≤ recordLengthOf r := by
  unfold recordLengthOf baseAddressOf dirLenOf
  omega

/-- The rebuilt bytes of a safe record start with a decimal digit byte (the
first character of the zero-padded record length). -/
theorem rebuiltBytes_head (r : BinRecord) (h : recordSafe r = true) :
    ∃ b t, rebuiltBytes r = b :: t ∧ 48 ≤ b ∧ b ≤ 57 := by
  obtain ⟨hfs, hld, hla, hrl⟩ := recordSafe_unpack r h
  have hA : (padStartZ (decStr (recordLengthOf r)) 5).data.length = 5 :=
    padStartZ_decStr_length _ 5 (by omega) (by norm_num; omega)
  obtain ⟨c, cs, hcs⟩ : ∃ c cs, (padStartZ (decStr (recordLengthOf r)) 5).data = c :: cs := by
    rcases hdd : (padStartZ (decStr (recordLengthOf r)) 5).data with _ | ⟨c, cs⟩
    · rw [hdd] at hA; simp at hA
    · exact ⟨c, cs, rfl⟩
  have hdig : isDecDigit c = true :=
    padStartZ_decStr_digits _ 5 c (by rw [hcs]; simp)
  have hc : 48 ≤ c.toNat ∧ c.toNat ≤ 57 := by simpa [isDecDigit] using hdig
  have hdataBig : (leaderStrOf r).data =
      (padStartZ (decStr (recordLengthOf r)) 5).data ++
        ((jsSubstring r.leader 5 12).data ++
          ((padStartZ (decStr (baseAddressOf r)) 5).data ++
            ((jsSubstring r.leader 17 20).data ++ ("4500" : String).data))) := by
    simp [leaderStrOf, string_data_append, List.append_assoc]
  obtain ⟨t0, ht0⟩ : ∃ t0, encStr (leaderStrOf r) = c.toNat :: t0 := by
    refine ⟨encChars (cs ++ ((jsSubstring r.leader 5 12).data ++
      ((padStartZ (decStr (baseAddressOf r)) 5).data ++
        ((jsSubstring r.leader 17 20).data ++ ("4500" : String).data)))), ?_⟩
    show encChars (leaderStrOf r).data = _
    rw [hdataBig, hcs]
    show utf8EncodeChar c ++ encChars (cs ++ _) = _
    rw [utf8EncodeChar_ascii c (isDecDigit_ascii c hdig)]
    rfl
  refine ⟨c.toNat, t0 ++ (((dirEntries r.fields 0).flatten ++ [FIELD_TERMINATOR]) ++
    (fieldDataOf r ++ [RECORD_TERMINATOR])), ?_, hc.1, hc.2⟩
  unfold rebuiltBytes
  rw [ht0]
  simp [List.append_assoc]

/-- The records the re-parse of a rebuilt concatenation produces, with
their running start offsets. -/
def rebuiltRecordsFrom : Nat → List BinRecord → List BinRecord
  | _, [] => []
  | pos, r :: rs =>
    ⟨pos, pos + recordLengthOf r, leaderStrOf r, r.fields.map canonField⟩ ::
      rebuiltRecordsFrom (pos + recordLengthOf r) rs

/-- Field contents of the re-parsed records. -/
theorem rebuiltRecordsFrom_fields : ∀ (rs : List BinRecord) (pos : Nat),
    (rebuiltRecordsFrom pos rs).map BinRecord.fields =
      rs.map (fun r => r.fields.map canonField) := by
  intro rs
  induction rs with
  | nil => intro pos; rfl
  | cons r rs ih =>
    intro pos
    show BinRecord.fields _ :: (rebuiltRecordsFrom (pos + recordLengthOf r) rs).map _ = _
    rw [ih]
    rfl

/-- Leaders of the re-parsed records. -/
theorem rebuiltRecordsFrom_leader : ∀ (rs : List BinRecord) (pos : Nat),
    (rebuiltRecordsFrom pos rs).map BinRecord.leader = rs.map leaderStrOf := by
  intro rs
  induction rs with
  | nil => intro pos; rfl
  | cons r rs ih =>
    intro pos
    show BinRecord.leader _ :: (rebuiltRecordsFrom (pos + recordLengthOf r) rs).map _ = _
    rw [ih]
    rfl

/-- Each safe record contributes at least one byte. -/
theorem rebuilt_flatten_length_ge (rs : List BinRecord)
    (h : ∀ r ∈ rs, recordSafe r = true) :
    rs.length ≤ ((rs.map rebuiltBytes).flatten).length := by
  induction rs with
  | nil => simp
  | cons r rs ih =>
    have hlen : (rebuiltBytes r).length = recordLengthOf r :=
      rebuiltBytes_length r (h r (by simp))
    have h26 := recordLengthOf_ge r
    have := ih (fun x hx => h x (by simp [hx]))
    simp only [List.map_cons, List.flatten_cons, List.length_append, List.length_cons]
    omega

/-- The record scan of `parse` over a consumed prefix `P` followed by the
concatenated rebuilt serializations of safe records finds exactly those
records at their running offsets. -/
theorem parseLoopAux_rebuilt :
    ∀ (rs : List BinRecord) (P : List Nat) (fuel : Nat),
      (∀ r ∈ rs, recordSafe r = true) →
      rs.length < fuel →
      parseLoopAux (P ++ (rs.map rebuiltBytes).flatten) fuel P.length =
        rebuiltRecordsFrom P.length rs := by
  intro rs
  induction rs with
  | nil =>
    intro P fuel _ hfuel
    rcases fuel with _ | fuel
    · omega
    conv_lhs => rw [parseLoopAux.eq_def]
    simp only []
    rw [if_neg (show ¬ (P.length <
      (P ++ (([] : List BinRecord).map rebuiltBytes).flatten).length) from by simp)]
    rfl
  | cons r rs ih =>
    intro P fuel hs hfuel
    rcases fuel with _ | fuel
    · omega
    have hsafe : recordSafe r = true := hs r (by simp)
    have hlenr : (rebuiltBytes r).length = recordLengthOf r :=
      rebuiltBytes_length r hsafe
    have h26 := recordLengthOf_ge r
    obtain ⟨b, t, hbt, hb48, hb57⟩ := rebuiltBytes_head r hsafe
    have hflat : (((r :: rs).map rebuiltBytes).flatten : List Nat) =
        rebuiltBytes r ++ (rs.map rebuiltBytes).flatten := by simp
    rw [hflat]
    conv_lhs => rw [parseLoopAux.eq_def]
    simp only []
    rw [if_pos (show P.length <
      (P ++ (rebuiltBytes r ++ (rs.map rebuiltBytes).flatten)).length from by
      simp only [List.length_append]; omega)]
    have hgd : (P ++ (rebuiltBytes r ++ (rs.map rebuiltBytes).flatten)).getD
        P.length 1 = b := by
      rw [List.getD_append_right _ _ _ _ (le_refl P.length), Nat.sub_self, hbt]
      rfl
    rw [if_neg (show ¬ ((P ++ (rebuiltBytes r ++
        (rs.map rebuiltBytes).flatten)).getD P.length 1 = 0 ∨
        (P ++ (rebuiltBytes r ++ (rs.map rebuiltBytes).flatten)).length ≤
          P.length + 24) from by
      rw [hgd]
      simp only [List.length_append]
      push_neg
      exact ⟨by omega, by omega⟩)]
    rw [parseRecord_rebuilt r P ((rs.map rebuiltBytes).flatten) hsafe]
    simp only []
    show (⟨P.length, P.length + recordLengthOf r, leaderStrOf r,
        r.fields.map canonField⟩ : BinRecord) ::
      parseLoopAux (P ++ (rebuiltBytes r ++ (rs.map rebuiltBytes).flatten)) fuel
        (P.length + recordLengthOf r) = rebuiltRecordsFrom P.length (r :: rs)
    rw [show P ++ (rebuiltBytes r ++ (rs.map rebuiltBytes).flatten) =
      (P ++ rebuiltBytes r) ++ (rs.map rebuiltBytes).flatten from by
      rw [List.append_assoc]]
    rw [show P.length + recordLengthOf r = (P ++ rebuiltBytes r).length from by
      rw [List.length_append, hlenr]]
    rw [ih (P ++ rebuiltBytes r) fuel (fun x hx => hs x (by simp [hx]))
      (by simp at hfuel; omega)]
    rw [show (P ++ rebuiltBytes r).length = P.length + recordLengthOf r from by
      rw [List.length_append, hlenr]]
    rfl

/-- The two numeric fields the rebuilt leader re-parses to: the recomputed
record length and the recomputed base address. -/
theorem leaderStrOf_parse_len (r : BinRecord) (h : recordSafe r = true) :
    jsParseInt (jsSubstring (leaderStrOf r) 0 5) =
      some ((recordLengthOf r : Nat) : Int) ∧
    jsParseInt (jsSubstring (leaderStrOf r) 12 17) =
      some ((baseAddressOf r : Nat) : Int) := by
  obtain ⟨hfs, hld, hla, hrl⟩ := recordSafe_unpack r h
  have hA : (padStartZ (decStr (recordLengthOf r)) 5).data.length = 5 :=
    padStartZ_decStr_length _ 5 (by omega) (by norm_num; omega)
  have hC : (padStartZ (decStr (baseAddressOf r)) 5).data.length = 5 :=
    padStartZ_decStr_length _ 5 (by omega) (by
      norm_num
      unfold recordLengthOf at hrl
      omega)
  have hB : (jsSubstring r.leader 5 12).data.length = 7 := by
    show ((r.leader.data.drop 5).take (12 - 5)).length = 7
    rw [List.length_take, List.length_drop, hld]
    decide
  have hdata : (leaderStrOf r).data =
      (padStartZ (decStr (recordLengthOf r)) 5).data ++
        ((jsSubstring r.leader 5 12).data ++
          ((padStartZ (decStr (baseAddressOf r)) 5).data ++
            ((jsSubstring r.leader 17 20).data ++ ("4500" : String).data))) := by
    simp [leaderStrOf, string_data_append, List.append_assoc]
  have hs05 : jsSubstring (leaderStrOf r) 0 5 =
      padStartZ (decStr (recordLengthOf r)) 5 := by
    show (⟨((leaderStrOf r).data.drop 0).take (5 - 0)⟩ : String) = _
    apply string_mk_eq
    rw [hdata, List.drop_zero,
      List.take_append_of_le_length (by rw [hA]),
      List.take_of_length_le (by rw [hA])]
  have hs1217 : jsSubstring (leaderStrOf r) 12 17 =
      padStartZ (decStr (baseAddressOf r)) 5 := by
    show (⟨((leaderStrOf r).data.drop 12).take (17 - 12)⟩ : String) = _
    apply string_mk_eq
    rw [hdata, ← List.append_assoc,
      drop_prefix_len ((padStartZ (decStr (recordLengthOf r)) 5).data ++
        (jsSubstring r.leader 5 12).data) _ 12 (by rw [List.length_append, hA, hB]),
      List.take_append_of_le_length (by rw [hC]),
      List.take_of_length_le (by rw [hC])]
  exact ⟨by rw [hs05, jsParseInt_padStartZ_decStr],
    by rw [hs1217, jsParseInt_padStartZ_decStr]⟩

/-- C1 (amended): for every byte buffer whose decoded records are
rebuild-safe (`recordSafe`: three-ASCII-character tags with a consistent
control flag, one-byte indicators, distinct one-byte subfield codes with
delimiter-free values, a 24-character ASCII leader, and serialized sizes
that fit the fixed-width directory and leader slots), re-encoding the
unmutated records succeeds and concatenates the per-record serializations;
every rebuilt record is internally consistent -- its length equals
`baseAddress + fieldData + 1` with `baseAddress = 24 + directoryLength`,
its directory entries record exactly the terminated serialized field
lengths (by construction of `dirEntries`/`rebuildField`), and its leader
re-parses to exactly these recomputed numbers -- and re-decoding the
rebuilt output yields the same number of records whose field content
(tags, indicators, subfield codes and values) matches the first decode,
with each data field's subfields in `Object.entries` order
(`canonField`); leaders are the rebuilt ones, so byte identity with the
input is not required and insertion order of digit-coded subfields is not
preserved. -/
theorem claimC1_round_trip (buf : List Nat)
    (hsafe : ∀ r ∈ parse buf, recordSafe r = true) :
    exportBinary (parse buf) = some (((parse buf).map rebuiltBytes).flatten) ∧
    (∀ r ∈ parse buf,
      rebuildRecord r = some (rebuiltBytes r) ∧
      (rebuiltBytes r).length = recordLengthOf r ∧
      recordLengthOf r = (24 + dirLenOf r) + (fieldDataOf r).length + 1 ∧
      baseAddressOf r = 24 + dirLenOf r ∧
      jsParseInt (jsSubstring (leaderStrOf r) 0 5) =
        some ((recordLengthOf r : Nat) : Int) ∧
      jsParseInt (jsSubstring (leaderStrOf r) 12 17) =
        some ((baseAddressOf r : Nat) : Int)) ∧
    (parse (((parse buf).map rebuiltBytes).flatten)).map BinRecord.fields =
      (parse buf).map (fun r => r.fields.map canonField) ∧
    (parse (((parse buf).map rebuiltBytes).flatten)).map BinRecord.leader =
      (parse buf).map leaderStrOf := by
  have hparse : parse (((parse buf).map rebuiltBytes).flatten) =
      rebuiltRecordsFrom 0 (parse buf) :=
    parseLoopAux_rebuilt (parse buf) []
      ((((parse buf).map rebuiltBytes).flatten).length + 1) hsafe
      (by have := rebuilt_flatten_length_ge (parse buf) hsafe; omega)
  refine ⟨?_, ?_, ?_, ?_⟩
  · show (match (parse buf).mapM rebuildRecord with
      | none => none
      | some parts => some parts.flatten) = _
    rw [mapM_opt rebuildRecord rebuiltBytes (parse buf)
      (fun r hr => rebuildRecord_eq r (hsafe r hr))]
  · intro r hr
    exact ⟨rebuildRecord_eq r (hsafe r hr), rebuiltBytes_length r (hsafe r hr),
      rfl, rfl, (leaderStrOf_parse_len r (hsafe r hr)).1,
      (leaderStrOf_parse_len r (hsafe r hr)).2⟩
  · rw [hparse, rebuiltRecordsFrom_fields]
  · rw [hparse, rebuiltRecordsFrom_leader]

/-- Witness for C1: the 44-byte sample record is rebuild-safe, and the
round trip reproduces its field content. -/
theorem claimC1_round_trip_witness :
    (∀ r ∈ parse sampleRecordBytes, recordSafe r = true) ∧
    (parse (((parse sampleRecordBytes).map rebuiltBytes).flatten)).map
        BinRecord.fields =
      (parse sampleRecordBytes).map (fun r => r.fields.map canonField) :=
  ⟨by decide, (claimC1_round_trip sampleRecordBytes (by decide)).2.2.1⟩
